import Mathlib

/-!
Verification of the trace hierarchy reconstruction and span-classification
engine (`buildTraceHierarchy` and its span normalization pipeline, from
`src/services/trace/types.ts`).

The raw spans handed to `buildTraceHierarchy` are untyped JavaScript values,
so we embed a JSON-like value type `JVal` together with the JavaScript
primitives the source relies on (truthiness, property access, `String(...)`
conversion, `Object.entries`, `parseInt`, `JSON.stringify`, `Date` parsing,
stable `Array.prototype.sort`).  Mutable `TraceSpan` objects linked through
`childSpans` references are embedded arena-style: the normalized spans are a
list (in input order, matching `allSpans`), and parent/child links are list
indices, so that the cyclic object graphs the source can build remain
representable.  Places where the JavaScript would throw a `TypeError` are
embedded as `Except.error`.
-/

/-- JavaScript runtime values as far as the trace code observes them.
`jnull` stands for both `null` and `undefined` appearing as a stored value
(an absent property is `Option.none` instead); the code under analysis
treats the two alike (`value !== undefined && value !== null`). -/
inductive JVal where
  | jnull : JVal
  | jbool : Bool → JVal
  | jnum : Int → JVal
  | jstr : String → JVal
  | jarr : List JVal → JVal
  | jobj : List (String × JVal) → JVal
  deriving Repr

mutual

/-- Decidable equality for `JVal` (hand-written: `deriving` does not handle
the nesting through `List`). -/
def JVal.decEq : (a b : JVal) → Decidable (a = b)
  | .jnull, .jnull => .isTrue rfl
  | .jbool x, .jbool y =>
    if h : x = y then .isTrue (by rw [h]) else .isFalse (fun he => h (JVal.jbool.inj he))
  | .jnum x, .jnum y =>
    if h : x = y then .isTrue (by rw [h]) else .isFalse (fun he => h (JVal.jnum.inj he))
  | .jstr x, .jstr y =>
    if h : x = y then .isTrue (by rw [h]) else .isFalse (fun he => h (JVal.jstr.inj he))
  | .jarr xs, .jarr ys =>
    match JVal.decEqList xs ys with
    | .isTrue h => .isTrue (by rw [h])
    | .isFalse h => .isFalse (fun he => h (JVal.jarr.inj he))
  | .jobj xs, .jobj ys =>
    match JVal.decEqFields xs ys with
    | .isTrue h => .isTrue (by rw [h])
    | .isFalse h => .isFalse (fun he => h (JVal.jobj.inj he))
  | .jnull, .jbool _ => .isFalse nofun
  | .jnull, .jnum _ => .isFalse nofun
  | .jnull, .jstr _ => .isFalse nofun
  | .jnull, .jarr _ => .isFalse nofun
  | .jnull, .jobj _ => .isFalse nofun
  | .jbool _, .jnull => .isFalse nofun
  | .jbool _, .jnum _ => .isFalse nofun
  | .jbool _, .jstr _ => .isFalse nofun
  | .jbool _, .jarr _ => .isFalse nofun
  | .jbool _, .jobj _ => .isFalse nofun
  | .jnum _, .jnull => .isFalse nofun
  | .jnum _, .jbool _ => .isFalse nofun
  | .jnum _, .jstr _ => .isFalse nofun
  | .jnum _, .jarr _ => .isFalse nofun
  | .jnum _, .jobj _ => .isFalse nofun
  | .jstr _, .jnull => .isFalse nofun
  | .jstr _, .jbool _ => .isFalse nofun
  | .jstr _, .jnum _ => .isFalse nofun
  | .jstr _, .jarr _ => .isFalse nofun
  | .jstr _, .jobj _ => .isFalse nofun
  | .jarr _, .jnull => .isFalse nofun
  | .jarr _, .jbool _ => .isFalse nofun
  | .jarr _, .jnum _ => .isFalse nofun
  | .jarr _, .jstr _ => .isFalse nofun
  | .jarr _, .jobj _ => .isFalse nofun
  | .jobj _, .jnull => .isFalse nofun
  | .jobj _, .jbool _ => .isFalse nofun
  | .jobj _, .jnum _ => .isFalse nofun
  | .jobj _, .jstr _ => .isFalse nofun
  | .jobj _, .jarr _ => .isFalse nofun

/-- Decidable equality for lists of `JVal`. -/
def JVal.decEqList : (a b : List JVal) → Decidable (a = b)
  | [], [] => .isTrue rfl
  | [], _ :: _ => .isFalse nofun
  | _ :: _, [] => .isFalse nofun
  | x :: xs, y :: ys =>
    match JVal.decEq x y with
    | .isFalse h => .isFalse (fun he => h (List.cons.inj he).1)
    | .isTrue h1 =>
      match JVal.decEqList xs ys with
      | .isTrue h2 => .isTrue (by rw [h1, h2])
      | .isFalse h2 => .isFalse (fun he => h2 (List.cons.inj he).2)

/-- Decidable equality for object field lists. -/
def JVal.decEqFields : (a b : List (String × JVal)) → Decidable (a = b)
  | [], [] => .isTrue rfl
  | [], _ :: _ => .isFalse nofun
  | _ :: _, [] => .isFalse nofun
  | (k, v) :: xs, (k2, v2) :: ys =>
    if hk : k = k2 then
      match JVal.decEq v v2 with
      | .isFalse h => .isFalse (fun he => h (congrArg Prod.snd (List.cons.inj he).1))
      | .isTrue h1 =>
        match JVal.decEqFields xs ys with
        | .isTrue h2 => .isTrue (by rw [hk, h1, h2])
        | .isFalse h2 => .isFalse (fun he => h2 (List.cons.inj he).2)
    else .isFalse (fun he => hk (congrArg Prod.fst (List.cons.inj he).1))

end

instance : DecidableEq JVal := JVal.decEq

instance : BEq JVal := instBEqOfDecidableEq

/-- JavaScript truthiness of a value. -/
def JVal.truthy : JVal → Bool
  | .jnull => false
  | .jbool b => b
  | .jnum n => n != 0
  | .jstr s => !s.isEmpty
  | .jarr _ => true
  | .jobj _ => true

/-- Truthiness of a possibly-absent value (`undefined` is falsy). -/
def truthyO : Option JVal → Bool
  | none => false
  | some v => v.truthy

/-- Keeps a present value only when it is truthy. -/
def truthyVal : Option JVal → Option JVal
  | none => none
  | some v => if v.truthy then some v else none

/-- Digits to a natural number (radix 10). -/
def digitsToNat (cs : List Char) : Nat :=
  cs.foldl (fun a c => a * 10 + (c.toNat - 48)) 0

/-- A string as a numeric index (array/string element access keys). -/
def strToIndex (k : String) : Option Nat :=
  if !k.data.isEmpty && k.data.all Char.isDigit then some (digitsToNat k.data) else none

/-- Whether `a` is a prefix of `b`, on character lists. -/
def listStarts : List Char → List Char → Bool
  | [], _ => true
  | _ :: _, [] => false
  | a :: as, b :: bs => a == b && listStarts as bs

/-- `s.startsWith(pre)`. -/
def strStarts (pre s : String) : Bool :=
  listStarts pre.data s.data

/-- `s.substring(0, n)` (counting code points; the claims never hinge on
surrogate-pair counting differences). -/
def strTakeN (s : String) (n : Nat) : String :=
  String.mk (s.data.take n)

/-- JavaScript whitespace as far as trimming is modelled. -/
def isJsWs (c : Char) : Bool :=
  c == ' ' || c == '\t' || c == '\n' || c == '\r'

/-- Characters of `s` with leading and trailing whitespace removed. -/
def trimData (s : String) : List Char :=
  ((s.data.dropWhile isJsWs).reverse.dropWhile isJsWs).reverse

/-- Property access `v[k]`.  Objects give the named field, arrays and strings
give numeric indexing (`arr["0"]`), other primitives have no own properties.
Access on `null`/`undefined` would throw in JavaScript; the embedding only
performs `getF` where the source has already guarded the receiver. -/
def JVal.getF : JVal → String → Option JVal
  | .jobj fs, k => (fs.find? (fun p => p.1 == k)).map (fun p => p.2)
  | .jarr xs, k => match strToIndex k with
    | some i => xs[i]?
    | none => none
  | .jstr s, k => match strToIndex k with
    | some i => (s.data[i]?).map (fun c => JVal.jstr c.toString)
    | none => none
  | _, _ => none

/-- The JavaScript idiom `x || d`: the value itself when truthy, else `d`. -/
def jsOr (v : Option JVal) (d : JVal) : JVal :=
  match v with
  | some x => if x.truthy then x else d
  | none => d

/-- `Object.entries(v)`: fields of an object, index/element pairs of an
array, index/character pairs of a string, `[]` for other primitives. -/
def jsEntries : JVal → List (String × JVal)
  | .jobj fs => fs
  | .jarr xs => xs.enum.map (fun p => (toString p.1, p.2))
  | .jstr s => s.data.enum.map (fun p => (toString p.1, JVal.jstr p.2.toString))
  | _ => []

mutual

/-- `String(v)` / template-literal conversion.  Arrays join their elements
with commas, `null` and `undefined` elements becoming empty strings. -/
def jsToString : JVal → String
  | .jnull => "null"
  | .jbool b => if b then "true" else "false"
  | .jnum n => toString n
  | .jstr s => s
  | .jarr xs => String.intercalate "," (jsArrParts xs)
  | .jobj _ => "[object Object]"

/-- Elements of `Array.prototype.flatten`: `null` elements print as empty. -/
def jsArrParts : List JVal → List String
  | [] => []
  | .jnull :: xs => "" :: jsArrParts xs
  | x :: xs => jsToString x :: jsArrParts xs

end

/-- JavaScript `ToNumber` on a string, restricted to the integer grammar:
whitespace-only is `0`, an optionally signed run of digits is its value,
anything else is `NaN` (`none`).  Fractional and exponent forms, which the
trace code never feeds through a numeric coercion, are treated as `NaN`. -/
def strToNumber (s : String) : Option Int :=
  let t := trimData s
  match t with
  | [] => some 0
  | '+' :: rest =>
    if !rest.isEmpty && rest.all Char.isDigit then some (digitsToNat rest) else none
  | '-' :: rest =>
    if !rest.isEmpty && rest.all Char.isDigit then some (-(digitsToNat rest : Int)) else none
  | _ => if t.all Char.isDigit then some (digitsToNat t) else none

/-- JavaScript `ToNumber` of a value; `none` is `NaN`. -/
def jsToNumber : JVal → Option Int
  | .jnull => some 0
  | .jbool b => some (if b then 1 else 0)
  | .jnum n => some n
  | .jstr s => strToNumber s
  | .jarr xs => strToNumber (jsToString (.jarr xs))
  | .jobj _ => none

/-- The comparison `x > 0` of JavaScript, on a possibly absent value
(`undefined > 0` and `NaN > 0` are both `false`). -/
def jsGtZero : Option JVal → Bool
  | none => false
  | some x =>
    match jsToNumber x with
    | some n => decide (0 < n)
    | none => false

/-- Maximal leading digit run, `none` when there is no digit. -/
def leadDigits (cs : List Char) : Option Int :=
  let ds := cs.takeWhile Char.isDigit
  if ds.isEmpty then none else some (digitsToNat ds)

/-- `parseInt(v, 10)`: stringify, skip leading whitespace, optional sign,
take the leading digit run; `none` is `NaN`. -/
def jsParseInt (v : JVal) : Option Int :=
  match trimData (jsToString v) with
  | '+' :: rest => leadDigits rest
  | '-' :: rest => (leadDigits rest).map (fun n => -n)
  | t => leadDigits t

/-- Days from the civil epoch 1970-01-01 (Gregorian, proleptic). -/
def daysFromCivil (y m d : Int) : Int :=
  let y2 := if m ≤ 2 then y - 1 else y
  let era := (if 0 ≤ y2 then y2 else y2 - 399) / 400
  let yoe := y2 - era * 400
  let mp := (m + 9) % 12
  let doy := (153 * mp + 2) / 5 + d - 1
  let doe := yoe * 365 + yoe / 4 - yoe / 100 + doy
  era * 146097 + doe - 719468

/-- Two decimal digits. -/
def twoDigits (a b : Char) : Option Nat :=
  if a.isDigit && b.isDigit then some ((a.toNat - 48) * 10 + (b.toNat - 48)) else none

/-- Milliseconds since the epoch of a UTC civil timestamp, with range checks
as the ECMAScript ISO parser performs them. -/
def dateMsOf (year mo day h mi s frac : Nat) : Option Int :=
  if 1 ≤ mo ∧ mo ≤ 12 ∧ 1 ≤ day ∧ day ≤ 31 ∧ h ≤ 23 ∧ mi ≤ 59 ∧ s ≤ 59 then
    some (((((daysFromCivil year mo day) * 24 + h) * 60 + mi) * 60 + s) * 1000 + frac)
  else none

/-- Year-level helper combining four digit characters. -/
def fourDigits (a b c d : Char) : Option Nat :=
  match twoDigits a b, twoDigits c d with
  | some hi, some lo => some (hi * 100 + lo)
  | _, _ => none

/-- RFC3339/ISO UTC timestamp parsing over the character list. -/
def parseDateChars : List Char → Option Int
  | [y1, y2, y3, y4, '-', a1, a2, '-', b1, b2] =>
    match fourDigits y1 y2 y3 y4, twoDigits a1 a2, twoDigits b1 b2 with
    | some y, some mo, some d => dateMsOf y mo d 0 0 0 0
    | _, _, _ => none
  | [y1, y2, y3, y4, '-', a1, a2, '-', b1, b2, 'T', h1, h2, ':', m1, m2, ':', s1, s2, 'Z'] =>
    match fourDigits y1 y2 y3 y4, twoDigits a1 a2, twoDigits b1 b2,
          twoDigits h1 h2, twoDigits m1 m2, twoDigits s1 s2 with
    | some y, some mo, some d, some h, some mi, some s => dateMsOf y mo d h mi s 0
    | _, _, _, _, _, _ => none
  | [y1, y2, y3, y4, '-', a1, a2, '-', b1, b2, 'T', h1, h2, ':', m1, m2, ':', s1, s2,
     '.', f1, f2, f3, 'Z'] =>
    match fourDigits y1 y2 y3 y4, twoDigits a1 a2, twoDigits b1 b2,
          twoDigits h1 h2, twoDigits m1 m2, twoDigits s1 s2,
          twoDigits f1 f2, (if f3.isDigit then some (f3.toNat - 48) else none) with
    | some y, some mo, some d, some h, some mi, some s, some fhi, some flo =>
      dateMsOf y mo d h mi s (fhi * 10 + flo)
    | _, _, _, _, _, _, _, _ => none
  | _ => none

/-- Models the platform `new Date(x).getTime()` builtin (not repository
code): numbers pass through as millisecond timestamps, RFC3339 UTC strings
parse, booleans and `null` coerce numerically, everything else is an invalid
date, i.e. `NaN` (`none`).  The full ECMAScript date grammar is wider; only
the shapes a tracing backend emits are modelled, and any unmodelled string
behaves as an unparsable timestamp. -/
def dateGetTime : JVal → Option Int
  | .jnum n => some n
  | .jbool b => some (if b then 1 else 0)
  | .jnull => some 0
  | .jstr s => parseDateChars s.data
  | .jarr xs => parseDateChars (jsToString (.jarr xs)).data
  | .jobj _ => none

/-- One escaped character of `JSON.stringify` string output (control
characters beyond the common escapes are left verbatim; the claims never
depend on them). -/
def escChar (c : Char) : String :=
  if c = '"' then "\\\""
  else if c = '\\' then "\\\\"
  else if c = '\n' then "\\n"
  else if c = '\t' then "\\t"
  else if c = '\r' then "\\r"
  else c.toString

/-- Escaped JSON string body. -/
def escStr (s : String) : String :=
  String.join (s.data.map escChar)

mutual

/-- `JSON.stringify(v)` for the tree-shaped values of the embedding (cyclic
references, where the source would fall into its `catch`, cannot occur in a
`JVal`). -/
def jsonStr : JVal → String
  | .jnull => "null"
  | .jbool b => if b then "true" else "false"
  | .jnum n => toString n
  | .jstr s => "\"" ++ escStr s ++ "\""
  | .jarr xs => "[" ++ String.intercalate "," (jsonList xs) ++ "]"
  | .jobj fs => "\x7b" ++ String.intercalate "," (jsonFields fs) ++ "\x7d"

/-- Array elements of `JSON.stringify`. -/
def jsonList : List JVal → List String
  | [] => []
  | x :: xs => jsonStr x :: jsonList xs

/-- Object fields of `JSON.stringify`. -/
def jsonFields : List (String × JVal) → List String
  | [] => []
  | (k, v) :: fs => ("\"" ++ escStr k ++ "\":" ++ jsonStr v) :: jsonFields fs

end

/-- Stable insertion of `x` into `l`: `x` goes in front of the first element
it does not compare strictly after. -/
def insertCmp (cmp : α → α → Int) (x : α) : List α → List α
  | [] => [x]
  | y :: ys => if cmp x y ≤ 0 then x :: y :: ys else y :: insertCmp cmp x ys

/-- Models `Array.prototype.sort(comparator)`: a stable comparison sort; a
comparator evaluating to `NaN` is treated as `0` (equal), which is encoded
inside the comparators passed in.  For inconsistent comparators ECMAScript
leaves the order implementation-defined; a stable insertion sort is the
model, and every property proved about ties relies only on stability. -/
def sortCmp (cmp : α → α → Int) : List α → List α
  | [] => []
  | x :: xs => insertCmp cmp x (sortCmp cmp xs)

/-- Canonical trace span status (`TraceStatus` enum of the source). -/
inductive TraceStatus where
  | OK
  | ERROR
  | UNSPECIFIED
  deriving Repr, BEq, DecidableEq

/-- Template-literal rendering of a possibly absent value. -/
def jstrOf : Option JVal → String
  | some x => jsToString x
  | none => "undefined"

/-- Label lookup `span.labels[k]`. -/
def labelGet (span : JVal) (k : String) : Option JVal :=
  (span.getF "labels").bind (fun l => l.getF k)

/-- Status extraction (source lines 479-501): an explicit truthy `status`
object is consulted first (`code === 0` strictly, then the coercing
`code > 0`); only when that leaves `UNSPECIFIED` are the v1 labels read:
a truthy error label forces `ERROR`, else a truthy `/http/status_code`
label is `parseInt`-classified. -/
def resolveStatus (span : JVal) : TraceStatus :=
  let s1 : TraceStatus :=
    if truthyO (span.getF "status") then
      let code := (span.getF "status").bind (fun st => st.getF "code")
      if code == some (JVal.jnum 0) then .OK
      else if jsGtZero code then .ERROR
      else .UNSPECIFIED
    else .UNSPECIFIED
  if s1 != .UNSPECIFIED then s1
  else if truthyO (span.getF "labels") then
    if truthyO (labelGet span "/error/message") || truthyO (labelGet span "error") then .ERROR
    else if truthyO (labelGet span "/http/status_code") then
      match (labelGet span "/http/status_code").bind jsParseInt with
      | some sc =>
        if 400 ≤ sc then .ERROR
        else if 200 ≤ sc ∧ sc < 400 then .OK
        else .UNSPECIFIED
      | none => .UNSPECIFIED
    else .UNSPECIFIED
  else .UNSPECIFIED

/-- Kind extraction (source lines 462-477): `kind`, else `spanKind`, else
`UNSPECIFIED`; a result strictly equal to the string `UNSPECIFIED` is
refined from the `/span/kind` or `span.kind` labels. -/
def resolveKind (span : JVal) : JVal :=
  let k0 : JVal :=
    if truthyO (span.getF "kind") then jsOr (span.getF "kind") .jnull
    else if truthyO (span.getF "spanKind") then jsOr (span.getF "spanKind") .jnull
    else .jstr "UNSPECIFIED"
  if k0 == JVal.jstr "UNSPECIFIED" && truthyO (span.getF "labels") then
    if truthyO (labelGet span "/span/kind") then jsOr (labelGet span "/span/kind") .jnull
    else if truthyO (labelGet span "span.kind") then jsOr (labelGet span "span.kind") .jnull
    else k0
  else k0

/-- Name extraction from the v1 label map (source lines 391-432): the fixed
chain of well-known labels, then — when the name is still literally
`Unknown Span` — the first descriptive label.  A truthy non-string
`/db/statement` label hits `.substring` and throws. -/
def labelsName (lbl : JVal) : Except String String :=
  let g := fun k => lbl.getF k
  let dn : Except String String :=
    if truthyO (g "/http/path") then
      .ok (jsToString (jsOr (g "/http/method") (.jstr "")) ++ " " ++ jstrOf (g "/http/path"))
    else if truthyO (g "/http/url") then .ok ("HTTP " ++ jstrOf (g "/http/url"))
    else if truthyO (g "/http/status_code") then
      .ok ("HTTP Status: " ++ jstrOf (g "/http/status_code"))
    else if truthyO (g "/component") then .ok ("Component: " ++ jstrOf (g "/component"))
    else if truthyO (g "/db/statement") then
      match g "/db/statement" with
      | some (.jstr s) =>
        .ok (jsToString (jsOr (g "/db/system") (.jstr "DB")) ++ ": " ++ strTakeN s 30 ++ "...")
      | _ => .error "TypeError: span.labels[/db/statement].substring is not a function"
    else if truthyO (g "g.co/agent") then .ok ("Agent: " ++ jstrOf (g "g.co/agent"))
    else if truthyO (g "g.co/gae/app/module") then
      .ok ("GAE Module: " ++ jstrOf (g "g.co/gae/app/module"))
    else if truthyO (g "g.co/gae/app/version") then
      .ok ("GAE Version: " ++ jstrOf (g "g.co/gae/app/version"))
    else if truthyO (g "g.co/gce/instance_id") then
      .ok ("GCE Instance: " ++ jstrOf (g "g.co/gce/instance_id"))
    else .ok "Unknown Span"
  match dn with
  | .error e => .error e
  | .ok d =>
    if d == "Unknown Span" then
      match (jsEntries lbl).filter (fun kv =>
          (match kv.2 with | .jstr s => decide (s.length < 50) | _ => false) &&
          !strStarts "/" kv.1 && !strStarts "g.co/" kv.1) with
      | [] => .ok d
      | (k, v) :: _ => .ok (k ++ ": " ++ jsToString v)
    else .ok d

/-- The fixed set of alternative raw-span name fields of the source. -/
def possibleNameFields : List String :=
  ["operationName", "description", "type", "method", "rpcName", "kind"]

/-- Alternative-field name extraction (source lines 434-449): the
`operation.name` branch, unconditionally followed by the field loop whose
first truthy string field overwrites the result. -/
def altFieldsName (span : JVal) : String :=
  let opName := (span.getF "operation").bind (fun o => o.getF "name")
  let b0 : String :=
    if truthyO (span.getF "operation") && truthyO opName then
      "Operation: " ++ jstrOf opName
    else "Unknown Span"
  match possibleNameFields.filterMap (fun f =>
      match span.getF f with
      | some (.jstr s) => if s.isEmpty then none else some (f ++ ": " ++ s)
      | _ => none) with
  | [] => b0
  | r :: _ => r

/-- Display-name resolution (source lines 361-455).  The initial value comes
from `name`, `displayName.value`, a string-typed `displayName`, or the
default `Unknown Span`; `displayName.startsWith` then throws whenever that
value is not a string.  Later stages key solely on the name being literally
`Unknown Span`. -/
def resolveDisplayName (span : JVal) (spanId : JVal) : Except String String :=
  let base : JVal :=
    match truthyVal (span.getF "name") with
    | some v => v
    | none =>
      match truthyVal ((span.getF "displayName").bind (fun d => d.getF "value")) with
      | some v => v
      | none =>
        match span.getF "displayName" with
        | some (.jstr s) => .jstr s
        | _ => .jstr "Unknown Span"
  match base with
  | .jstr s0 =>
    let d0 := if strStarts "/" s0 then "HTTP " ++ s0 else s0
    let d1 : Except String String :=
      if d0 == "Unknown Span" && truthyO (span.getF "labels") then
        labelsName (jsOr (span.getF "labels") .jnull)
      else .ok d0
    match d1 with
    | .error e => .error e
    | .ok d1v =>
      let d2 := if d0 == "Unknown Span" && d1v == "Unknown Span" then altFieldsName span else d1v
      .ok (if d2 == "Unknown Span" && spanId.truthy then
            "Unknown Span (ID: " ++ jsToString spanId ++ ")"
          else d2)
  | _ => .error "TypeError: displayName.startsWith is not a function"

/-- JavaScript object update `attrs[k] = v`: an existing key keeps its
position and takes the new value, a fresh key is appended. -/
def objSet (attrs : List (String × JVal)) (k : String) (v : JVal) : List (String × JVal) :=
  if attrs.any (fun p => p.1 == k) then
    attrs.map (fun p => if p.1 == k then (k, v) else p)
  else attrs ++ [(k, v)]

/-- Attribute source (a), the v1 label map (source lines 513-521):
non-null label values are stringified and assigned. -/
def passLabels (span : JVal) (attrs : List (String × JVal)) : List (String × JVal) :=
  if truthyO (span.getF "labels") then
    (jsEntries (jsOr (span.getF "labels") .jnull)).foldl
      (fun acc kv =>
        if kv.2 == JVal.jnull then acc else objSet acc kv.1 (.jstr (jsToString kv.2)))
      attrs
  else attrs

/-- Value extraction for a v2 `attributeMap` entry:
`value?.stringValue || String(value?.intValue || value?.boolValue || "")`.
A truthy `stringValue` is stored verbatim (whatever runtime type it has). -/
def attrMapVal (v : JVal) : JVal :=
  match truthyVal (v.getF "stringValue") with
  | some sv => sv
  | none => .jstr (jsToString (jsOr (v.getF "intValue") (jsOr (v.getF "boolValue") (.jstr ""))))

/-- Attribute source (b), the v2 `attributes.attributeMap` (source lines
523-532): non-null entries are assigned, overwriting whatever source (a)
put there. -/
def passAttrMap (span : JVal) (attrs : List (String × JVal)) : List (String × JVal) :=
  let am := (span.getF "attributes").bind (fun a => a.getF "attributeMap")
  if truthyO (span.getF "attributes") && truthyO am then
    (jsEntries (jsOr am .jnull)).foldl
      (fun acc kv => if kv.2 == JVal.jnull then acc else objSet acc kv.1 (attrMapVal kv.2))
      attrs
  else attrs

/-- The raw-span fields consumed by the standard extraction, skipped by
attribute source (c). -/
def standardSpanKeys : List String :=
  ["spanId", "name", "displayName", "startTime", "endTime", "parentSpanId",
   "kind", "status", "labels", "attributes", "childSpans"]

/-- Stored value for a leftover top-level raw-span field (source lines
542-558): primitives stringify, plain objects JSON-serialize truncated to
100 characters with an ellipsis, arrays and null produce nothing.  (The
`catch` branch of the source is unreachable over tree-shaped values.) -/
def rawFieldVal : JVal → Option JVal
  | .jnull => none
  | .jarr _ => none
  | .jobj fs =>
    some (.jstr (strTakeN (jsonStr (.jobj fs)) 100 ++
      if 100 < (jsonStr (.jobj fs)).length then "..." else ""))
  | v => some (.jstr (jsToString v))

/-- Attribute source (c), leftover top-level fields (source lines 534-559),
stored under `raw.`-prefixed keys. -/
def passRawFields (span : JVal) (attrs : List (String × JVal)) : List (String × JVal) :=
  (jsEntries span).foldl
    (fun acc kv =>
      if standardSpanKeys.contains kv.1 then acc
      else match rawFieldVal kv.2 with
        | some v => objSet acc ("raw." ++ kv.1) v
        | none => acc)
    attrs

/-- Attribute flattening, sources (a) then (b) then (c) over an initially
empty map (source lines 503-559). -/
def flattenAttrs (span : JVal) : List (String × JVal) :=
  passRawFields span (passAttrMap span (passLabels span []))

/-- The canonical span produced by the normalization part of
`buildTraceHierarchy` (one `TraceSpan` minus the `childSpans` links, which
the arena keeps as indices). -/
structure TraceSpanCore where
  spanId : JVal
  displayName : String
  startTime : JVal
  endTime : JVal
  parentSpanId : JVal
  kind : JVal
  status : TraceStatus
  attributes : List (String × JVal)
  deriving Repr, DecidableEq

/-- Normalization of one raw span (the `spans.map` body, source lines
356-587).  `Except.error` marks exactly the states where the JavaScript
throws a `TypeError`. -/
def normalizeSpan (span : JVal) : Except String TraceSpanCore :=
  if span == JVal.jnull then
    .error "TypeError: Cannot read properties of null"
  else
    let spanId := jsOr (span.getF "spanId") (.jstr "")
    match resolveDisplayName span spanId with
    | .error e => .error e
    | .ok dn =>
      .ok {
        spanId := spanId
        displayName := dn
        startTime := jsOr (span.getF "startTime") (.jstr "")
        endTime := jsOr (span.getF "endTime") (.jstr "")
        parentSpanId := jsOr (span.getF "parentSpanId") (.jstr "")
        kind := resolveKind span
        status := resolveStatus span
        attributes := flattenAttrs span }

/-- Worker for the span map: walking the remaining spans with their absolute
indices, preferring a match further right (`Map.set` overwrites). -/
def lookupIdAux (cores : List TraceSpanCore) (id : JVal) (i : Nat) : Option Nat :=
  match cores with
  | [] => none
  | c :: rest =>
    match lookupIdAux rest id (i + 1) with
    | some j => some j
    | none => if c.spanId == id then some i else none

/-- The `spanMap.get` lookup: `spanMap.set(spanId, traceSpan)` runs once per
span in input order, so a duplicated id resolves to the last span carrying
it.  (`Map` key equality is SameValueZero; structural `JVal` equality
models it, exactly for the primitive keys the backend produces.) -/
def lookupId (cores : List TraceSpanCore) (id : JVal) : Option Nat :=
  lookupIdAux cores id 0

/-- Whether the link pass sees a truthy `parentSpanId` on span `i`. -/
def hasParentRef (cores : List TraceSpanCore) (i : Nat) : Bool :=
  match cores[i]? with
  | some c => c.parentSpanId.truthy
  | none => false

/-- The parent index span `i` is linked under: its `parentSpanId` resolved
through the span map; `none` when there is no truthy `parentSpanId` or the
reference dangles. -/
def linkParent (cores : List TraceSpanCore) (i : Nat) : Option Nat :=
  match cores[i]? with
  | some c => if c.parentSpanId.truthy then lookupId cores c.parentSpanId else none
  | none => none

/-- Whether the link pass pushes span `i` onto `rootSpans`. -/
def isRootB (cores : List TraceSpanCore) (i : Nat) : Bool :=
  !hasParentRef cores i || (linkParent cores i).isNone

/-- `rootSpans` in discovery order (source lines 590-620): the link pass
walks spans in input order and pushes each span with no resolvable parent;
a filter over the indices in input order renders that loop. -/
def rootIdxsOf (cores : List TraceSpanCore) : List Nat :=
  (List.range cores.length).filter (fun i => isRootB cores i)

/-- `childSpans` of span `p` right after the link pass (source lines
595-620): the loop appends each linked span to its parent in input order;
a filter over the indices in input order renders that loop. -/
def linkChildren (cores : List TraceSpanCore) (p : Nat) : List Nat :=
  (List.range cores.length).filter (fun i => linkParent cores i == some p)

/-- The `startTime` field of span `i` of the arena. -/
def spanStartTime (cores : List TraceSpanCore) (i : Nat) : JVal :=
  match cores[i]? with
  | some c => c.startTime
  | none => .jstr ""

/-- The sort-pass comparator (source lines 626-628):
`new Date(a.startTime).getTime() - new Date(b.startTime).getTime()`,
a `NaN` difference acting as `0`. -/
def spanStartCmp (cores : List TraceSpanCore) (i j : Nat) : Int :=
  match dateGetTime (spanStartTime cores i), dateGetTime (spanStartTime cores j) with
  | some x, some y => x - y
  | _, _ => 0

/-- `childSpans` of span `p` after the sort pass (source lines 622-630). -/
def childrenOf (cores : List TraceSpanCore) (p : Nat) : List Nat :=
  sortCmp (spanStartCmp cores) (linkChildren cores p)

/-- The `TraceData` result, arena-style: `allSpans` is the flat normalized
list in input order, `rootIdxs` and `children` carry the hierarchy as
indices into it. -/
structure TraceData where
  traceId : String
  projectId : String
  allSpans : List TraceSpanCore
  rootIdxs : List Nat
  children : Nat → List Nat

instance : Inhabited TraceData := ⟨⟨"", "", [], [], fun _ => []⟩⟩

/-- The map pass `spans.map(...)` of the source: spans normalize left to
right, and a thrown `TypeError` aborts the whole call with that first
error. -/
def normalizeAll : List JVal → Except String (List TraceSpanCore)
  | [] => .ok []
  | s :: rest =>
    match normalizeSpan s with
    | .error e => .error e
    | .ok c =>
      match normalizeAll rest with
      | .error e => .error e
      | .ok cs => .ok (c :: cs)

/-- `buildTraceHierarchy` (source lines 337-658): normalize every span (the
map pass fills the span map before the link pass reads it), then link,
sort, and assemble.  An `Except.error` is a thrown `TypeError`. -/
def buildTraceHierarchy (projectId traceId : String) (spans : List JVal) :
    Except String TraceData :=
  match normalizeAll spans with
  | .error e => .error e
  | .ok cores =>
    .ok { traceId := traceId, projectId := projectId, allSpans := cores,
          rootIdxs := rootIdxsOf cores, children := childrenOf cores }

/-- The `TraceData` of a successful build (meaningful only when the build
succeeds; lets concrete evaluations avoid binding the result). -/
def builtOf (spans : List JVal) : TraceData :=
  match buildTraceHierarchy "p" "t" spans with
  | .ok t => t
  | .error _ => default

/-- The debug `countDescendants` recursion (source lines 638-650), with an
explicit call-stack budget: `0` fuel stops the walk, and the source
function is the limit the termination claim is about — any budget of at
least `allSpans.length` computes the same count from a root. -/
def countDescendantsFuel (ch : Nat → List Nat) : Nat → Nat → Nat
  | 0, _ => 0
  | fuel + 1, i => (ch i).length + ((ch i).map (countDescendantsFuel ch fuel)).sum

/-- Transitive `childSpans` reachability: `Reaches ch i j` when `j` lies in
the child graph strictly below `i` (one or more child steps). -/
inductive Reaches (ch : Nat → List Nat) : Nat → Nat → Prop
  | single : ∀ {i j : Nat}, j ∈ ch i → Reaches ch i j
  | step : ∀ {i j k : Nat}, Reaches ch i j → k ∈ ch j → Reaches ch i k

instance : Inhabited JVal := ⟨JVal.jnull⟩

instance : Inhabited TraceSpanCore :=
  ⟨⟨.jstr "", "", .jstr "", .jstr "", .jstr "", .jstr "", .UNSPECIFIED, []⟩⟩

/-- Attribute lookup in a flattened attribute map. -/
def lookupAttr : List (String × JVal) → String → Option JVal
  | [], _ => none
  | p :: rest, k => if p.1 == k then some p.2 else lookupAttr rest k

/-- Whether the raw span carries a truthy `status` object whose `code` is
strictly the number `0`. -/
def statusExplicitZero (span : JVal) : Bool :=
  truthyO (span.getF "status") &&
    ((span.getF "status").bind (fun st => st.getF "code") == some (JVal.jnum 0))

/-- Whether the raw span carries a truthy `status` object whose `code`
compares greater than `0` under numeric coercion. -/
def statusExplicitPos (span : JVal) : Bool :=
  truthyO (span.getF "status") &&
    jsGtZero ((span.getF "status").bind (fun st => st.getF "code"))

/-- Whether the labels hold a truthy value under an error-message key. -/
def errorLabelTruthy (span : JVal) : Bool :=
  truthyO (span.getF "labels") &&
    (truthyO (labelGet span "/error/message") || truthyO (labelGet span "error"))

/-- The `parseInt` value of a truthy `/http/status_code` label, when the
labels are present. -/
def httpLabelCode (span : JVal) : Option Int :=
  if truthyO (span.getF "labels") && truthyO (labelGet span "/http/status_code") then
    (labelGet span "/http/status_code").bind jsParseInt
  else none

/-- Status precedence as the amended claim C9 words it, written as an
independent first-match rule list to compare against the implementation's
`resolveStatus`. -/
def statusPrecedenceSpec (span : JVal) : TraceStatus :=
  if statusExplicitZero span then .OK
  else if statusExplicitPos span then .ERROR
  else if errorLabelTruthy span then .ERROR
  else
    match httpLabelCode span with
    | some sc =>
      if 400 ≤ sc then .ERROR
      else if 200 ≤ sc ∧ sc < 400 then .OK
      else .UNSPECIFIED
    | none => .UNSPECIFIED

/-- Claim C1's coverage property as stated: every span is a root or a
descendant of some root. -/
def rootsAndDescendantsCover (t : TraceData) : Prop :=
  ∀ i, i < t.allSpans.length →
    i ∈ t.rootIdxs ∨ ∃ r ∈ t.rootIdxs, Reaches t.children r i

/-- The start times of the children of `p` that parse, in child order. -/
def parsableStartTimes (t : TraceData) (p : Nat) : List Int :=
  (t.children p).filterMap (fun i => dateGetTime (spanStartTime t.allSpans i))

/-- Claim C7's ordering property as stated: whenever a span has two or more
children with parsable start times, those children appear in non-decreasing
start-time order. -/
def childOrderClaim (t : TraceData) : Prop :=
  ∀ p, 2 ≤ (parsableStartTimes t p).length →
    List.Chain' (fun a b => a ≤ b) (parsableStartTimes t p)

/-- One span whose `parentSpanId` is its own id (a parent-reference cycle of
length one). -/
def c1CexSpan : JVal :=
  .jobj [("spanId", .jstr "x"), ("parentSpanId", .jstr "x")]

/-- A self-referential span for the C2 counterexample. -/
def c2CexSpan : JVal :=
  .jobj [("spanId", .jstr "y"), ("parentSpanId", .jstr "y")]

/-- A span whose label map and structured attribute map collide on key
`k`. -/
def c4CexSpan : JVal :=
  .jobj [("spanId", .jstr "s"),
         ("labels", .jobj [("k", .jstr "a1")]),
         ("attributes", .jobj [("attributeMap",
            .jobj [("k", .jobj [("stringValue", .jstr "b1")])])])]

/-- A span whose raw `displayName` field is the empty string. -/
def c5BugSpan : JVal :=
  .jobj [("spanId", .jstr "x"), ("displayName", .jstr "")]

/-- A single-span input whose `name` field is the number `42`. -/
def c6BugSpans : List JVal :=
  [.jobj [("spanId", .jstr "a"), ("name", .jnum 42)]]

/-- A parent with three children: parsable start time (later), unparsable,
parsable (earlier). -/
def c7CexSpans : List JVal :=
  [.jobj [("spanId", .jstr "p")],
   .jobj [("spanId", .jstr "a"), ("parentSpanId", .jstr "p"),
          ("startTime", .jstr "2020-01-01T00:00:05Z")],
   .jobj [("spanId", .jstr "b"), ("parentSpanId", .jstr "p"),
          ("startTime", .jstr "garbage")],
   .jobj [("spanId", .jstr "c"), ("parentSpanId", .jstr "p"),
          ("startTime", .jstr "2020-01-01T00:00:01Z")]]

/-- A span with no status field whose labels carry `/error/message` with an
empty-string value. -/
def c9CexSpan : JVal :=
  .jobj [("spanId", .jstr "s"), ("labels", .jobj [("/error/message", .jstr "")])]

/-- Scenario A of the spec: a root and one child. -/
def scenarioASpans : List JVal :=
  [.jobj [("spanId", .jstr "a")],
   .jobj [("spanId", .jstr "b"), ("parentSpanId", .jstr "a"),
          ("startTime", .jstr "2020-01-01T00:00:01Z")]]

/-- Root-correctness witness input: a root, a linked child, and a span with
a dangling parent reference. -/
def c3WitnessSpans : List JVal :=
  [.jobj [("spanId", .jstr "a")],
   .jobj [("spanId", .jstr "b"), ("parentSpanId", .jstr "a")],
   .jobj [("spanId", .jstr "c"), ("parentSpanId", .jstr "zz")]]

/-- Two fully parsable children of one root, given out of time order. -/
def c7WitnessSpans : List JVal :=
  [.jobj [("spanId", .jstr "p")],
   .jobj [("spanId", .jstr "a"), ("parentSpanId", .jstr "p"),
          ("startTime", .jstr "2020-01-01T00:00:05Z")],
   .jobj [("spanId", .jstr "c"), ("parentSpanId", .jstr "p"),
          ("startTime", .jstr "2020-01-01T00:00:01Z")]]

/-- Two children of one root, both with unparsable start times. -/
def c7TieWitnessSpans : List JVal :=
  [.jobj [("spanId", .jstr "p")],
   .jobj [("spanId", .jstr "a"), ("parentSpanId", .jstr "p"),
          ("startTime", .jstr "garbage1")],
   .jobj [("spanId", .jstr "c"), ("parentSpanId", .jstr "p"),
          ("startTime", .jstr "garbage2")]]


/-- Whether every span in the list keeps its `spanId` and `parentSpanId`
fields either absent or string-valued (the shapes the data model declares
for identifiers). -/
def idFieldsAreStrings (spans : List JVal) : Bool :=
  spans.all (fun s =>
    (match s.getF "spanId" with
     | none => true
     | some (.jstr _) => true
     | some _ => false) &&
    (match s.getF "parentSpanId" with
     | none => true
     | some (.jstr _) => true
     | some _ => false))

/-- C5 (code bug): evaluating the normalizer at a raw span whose
`displayName` field is the empty string produces `displayName = ""` — the
`typeof span.displayName === "string"` branch accepts the empty string and
every later fallback (including the span-id placeholder) is keyed on the
name being literally `Unknown Span`, so the claimed non-emptiness fails on
this input. -/
theorem c5_displayName_empty_on_empty_string_field :
    (normalizeSpan c5BugSpan).toOption.map (fun c => c.displayName) = some "" := rfl

/-- C6 (code bug): evaluating the builder at a span list whose single span
has the numeric `name` field `42` throws (`displayName.startsWith` is
called on a number), refuting the claimed never-throws guarantee. -/
theorem c6_throws_on_numeric_name :
    buildTraceHierarchy "p" "t" c6BugSpans =
      .error "TypeError: displayName.startsWith is not a function" := rfl

/-- C1 (counterexample): on the non-empty input consisting of one span that
names itself as parent, the span is linked as its own child, `rootSpans` is
empty, and the union of roots and descendants of roots misses the span —
the stated completeness property fails. -/
theorem c1_counterexample :
    buildTraceHierarchy "p" "t" [c1CexSpan] = .ok (builtOf [c1CexSpan]) ∧
    [c1CexSpan] ≠ [] ∧
    ¬ rootsAndDescendantsCover (builtOf [c1CexSpan]) := by
  refine ⟨rfl, List.cons_ne_nil _ _, fun h => ?_⟩
  have hroots : (builtOf [c1CexSpan]).rootIdxs = [] := rfl
  have h0 := h 0 (by decide)
  rcases h0 with h0 | ⟨r, hr, _⟩
  · rw [hroots] at h0
    exact absurd h0 (List.not_mem_nil 0)
  · rw [hroots] at hr
    exact absurd hr (List.not_mem_nil r)

/-- C2 (counterexample): on the input consisting of one span whose
`parentSpanId` equals its own `spanId`, the produced structure has the span
inside its own transitive `childSpans` closure, refuting the claim as
stated over all inputs. -/
theorem c2_counterexample :
    buildTraceHierarchy "p" "t" [c2CexSpan] = .ok (builtOf [c2CexSpan]) ∧
    0 < (builtOf [c2CexSpan]).allSpans.length ∧
    Reaches (builtOf [c2CexSpan]).children 0 0 := by
  refine ⟨rfl, by decide, Reaches.single ?_⟩
  have hch : (builtOf [c2CexSpan]).children 0 = [0] := rfl
  rw [hch]
  exact List.mem_singleton.mpr rfl

/-- C4 (counterexample): on a span carrying label `k = "a1"` and structured
attribute `k = {stringValue: "b1"}`, the flattened attributes hold `"b1"` —
the later source overwrote the label map, refuting first-writer-wins. -/
theorem c4_counterexample :
    (normalizeSpan c4CexSpan).toOption.map (fun c => lookupAttr c.attributes "k") =
      some (some (JVal.jstr "b1")) ∧ JVal.jstr "b1" ≠ JVal.jstr "a1" :=
  ⟨rfl, by decide⟩

/-- C9 (counterexample): a span with no `status` field whose labels contain
the key `/error/message` with an empty-string value normalizes to status
`UNSPECIFIED`, not `ERROR` — the code tests the label value for truthiness,
not the key for presence, refuting the claim as stated. -/
theorem c9_counterexample :
    (labelGet c9CexSpan "/error/message").isSome = true ∧
    c9CexSpan.getF "status" = none ∧
    (normalizeSpan c9CexSpan).toOption.map (fun c => c.status) =
      some TraceStatus.UNSPECIFIED :=
  ⟨rfl, rfl, rfl⟩

/-- C7 (counterexample): a parent whose children arrive as (parsable, later),
(unparsable), (parsable, earlier) keeps them in that order — every adjacent
comparison ties through the unparsable child, and stability forbids
reordering — so the two parsable children are in strictly decreasing
start-time order, refuting the stated ordering property. -/
theorem c7_counterexample :
    buildTraceHierarchy "p" "t" c7CexSpans = .ok (builtOf c7CexSpans) ∧
    ¬ childOrderClaim (builtOf c7CexSpans) := by
  refine ⟨rfl, fun h => ?_⟩
  have he : parsableStartTimes (builtOf c7CexSpans) 0 = [1577836805000, 1577836801000] := rfl
  have h2 := h 0 (by rw [he]; decide)
  rw [he] at h2
  rw [List.chain'_cons] at h2
  exact absurd h2.1 (by decide)

theorem jval_beq_iff {a b : JVal} : (a == b) = true ↔ a = b := by
  constructor
  · exact fun h => of_decide_eq_true h
  · exact fun h => decide_eq_true h

theorem normalizeSpan_ok_parts {s : JVal} {c : TraceSpanCore} (h : normalizeSpan s = .ok c) :
    c.spanId = jsOr (s.getF "spanId") (.jstr "") ∧
    c.startTime = jsOr (s.getF "startTime") (.jstr "") ∧
    c.parentSpanId = jsOr (s.getF "parentSpanId") (.jstr "") ∧
    c.status = resolveStatus s ∧
    c.attributes = flattenAttrs s := by
  simp only [normalizeSpan] at h
  split at h
  · exact absurd h (by simp)
  · split at h
    · exact absurd h (by simp)
    · injection h with h
      subst h
      exact ⟨rfl, rfl, rfl, rfl, rfl⟩

theorem normalizeAll_ok_length {spans : List JVal} {cores : List TraceSpanCore}
    (h : normalizeAll spans = .ok cores) : cores.length = spans.length := by
  induction spans generalizing cores with
  | nil =>
    unfold normalizeAll at h
    injection h with h
    subst h
    rfl
  | cons s rest ih =>
    unfold normalizeAll at h
    split at h
    · exact absurd h (by simp)
    · split at h
      · exact absurd h (by simp)
      · injection h with h
        subst h
        simpa using ih (by assumption)

theorem normalizeAll_ok_get {spans : List JVal} {cores : List TraceSpanCore}
    (h : normalizeAll spans = .ok cores) (i : Nat) :
    cores[i]? = (spans[i]?).bind (fun v => (normalizeSpan v).toOption) := by
  induction spans generalizing cores i with
  | nil =>
    unfold normalizeAll at h
    injection h with h
    subst h
    simp
  | cons s rest ih =>
    unfold normalizeAll at h
    split at h
    · exact absurd h (by simp)
    next c hn =>
      split at h
      · exact absurd h (by simp)
      next cs hr =>
        injection h with h
        subst h
        match i with
        | 0 => simp [hn, Except.toOption]
        | i + 1 => simpa using ih hr i

theorem build_ok {pj tr : String} {spans : List JVal} {t : TraceData}
    (h : buildTraceHierarchy pj tr spans = .ok t) :
    normalizeAll spans = .ok t.allSpans ∧
    t.rootIdxs = rootIdxsOf t.allSpans ∧
    t.children = childrenOf t.allSpans := by
  unfold buildTraceHierarchy at h
  split at h
  · exact absurd h (by simp)
  next cores hn =>
    injection h with h
    subst h
    exact ⟨hn, rfl, rfl⟩

theorem lookupIdAux_nil {id : JVal} {i : Nat} : lookupIdAux [] id i = none := rfl

theorem lookupIdAux_cons {c : TraceSpanCore} {rest : List TraceSpanCore} {id : JVal} {i : Nat} :
    lookupIdAux (c :: rest) id i =
      (match lookupIdAux rest id (i + 1) with
       | some j => some j
       | none => if c.spanId == id then some i else none) := rfl

theorem lookupIdAux_some_bounds {cores : List TraceSpanCore} {id : JVal} {i j : Nat}
    (h : lookupIdAux cores id i = some j) : i ≤ j ∧ j < i + cores.length := by
  induction cores generalizing i j with
  | nil => exact absurd h (by rw [lookupIdAux_nil]; simp)
  | cons c rest ih =>
    rw [lookupIdAux_cons] at h
    cases h1 : lookupIdAux rest id (i + 1) with
    | some j2 =>
      rw [h1] at h
      obtain rfl : j2 = j := by simpa using h
      have := ih h1
      simp only [List.length_cons]
      omega
    | none =>
      rw [h1] at h
      simp only [] at h
      split at h
      · simp only [Option.some.injEq] at h
        subst h
        simp only [List.length_cons]
        omega
      · exact absurd h (by simp)

theorem lookupId_lt {cores : List TraceSpanCore} {id : JVal} {j : Nat}
    (h : lookupId cores id = some j) : j < cores.length := by
  have := lookupIdAux_some_bounds h
  omega

theorem lookupIdAux_some_mem {cores : List TraceSpanCore} {id : JVal} {i j : Nat}
    (h : lookupIdAux cores id i = some j) : ∃ c ∈ cores, c.spanId = id := by
  induction cores generalizing i j with
  | nil => exact absurd h (by rw [lookupIdAux_nil]; simp)
  | cons c rest ih =>
    rw [lookupIdAux_cons] at h
    cases h1 : lookupIdAux rest id (i + 1) with
    | some j2 =>
      obtain ⟨d, hd, he⟩ := ih h1
      exact ⟨d, List.mem_cons_of_mem _ hd, he⟩
    | none =>
      rw [h1] at h
      simp only [] at h
      split at h
      next hb => exact ⟨c, List.mem_cons_self c rest, jval_beq_iff.mp hb⟩
      · exact absurd h (by simp)

theorem lookupIdAux_none_iff {cores : List TraceSpanCore} {id : JVal} {i : Nat} :
    lookupIdAux cores id i = none ↔ ∀ c ∈ cores, c.spanId ≠ id := by
  induction cores generalizing i with
  | nil => rw [lookupIdAux_nil]; simp
  | cons c rest ih =>
    rw [lookupIdAux_cons]
    cases h1 : lookupIdAux rest id (i + 1) with
    | some j2 =>
      simp only []
      constructor
      · intro h
        exact absurd h (by simp)
      · intro hall
        obtain ⟨d, hd, he⟩ := lookupIdAux_some_mem h1
        exact absurd he (hall d (List.mem_cons_of_mem _ hd))
    | none =>
      simp only []
      constructor
      · intro h
        split at h
        · exact absurd h (by simp)
        next hb =>
          intro d hd
          rcases List.mem_cons.mp hd with hd | hd
          · subst hd
            intro he
            exact hb (jval_beq_iff.mpr he)
          · exact (ih.mp h1) d hd
      · intro hall
        have hb : ¬ (c.spanId == id) = true := fun hb =>
          hall c (List.mem_cons_self c rest) (jval_beq_iff.mp hb)
        simp [hb]

theorem lookupId_none_iff {cores : List TraceSpanCore} {id : JVal} :
    lookupId cores id = none ↔ ∀ c ∈ cores, c.spanId ≠ id :=
  lookupIdAux_none_iff

theorem insertCmp_perm (cmp : α → α → Int) (x : α) (l : List α) :
    (insertCmp cmp x l).Perm (x :: l) := by
  induction l with
  | nil => exact List.Perm.refl _
  | cons y ys ih =>
    unfold insertCmp
    split
    · exact List.Perm.refl _
    · exact (ih.cons y).trans (List.Perm.swap x y ys)

theorem sortCmp_perm (cmp : α → α → Int) (l : List α) : (sortCmp cmp l).Perm l := by
  induction l with
  | nil => exact List.Perm.refl _
  | cons x xs ih => exact (insertCmp_perm cmp x (sortCmp cmp xs)).trans (ih.cons x)

theorem mem_sortCmp {cmp : α → α → Int} {l : List α} {a : α} :
    a ∈ sortCmp cmp l ↔ a ∈ l :=
  (sortCmp_perm cmp l).mem_iff

theorem chain'_insertCmp {cmp : α → α → Int} {x : α} {l : List α}
    (htot : ∀ y ∈ l, cmp x y ≤ 0 ∨ cmp y x ≤ 0)
    (hc : List.Chain' (fun a b => cmp a b ≤ 0) l) :
    List.Chain' (fun a b => cmp a b ≤ 0) (insertCmp cmp x l) := by
  induction l with
  | nil => simp [insertCmp]
  | cons y ys ih =>
    rw [List.chain'_cons'] at hc
    unfold insertCmp
    split
    next hle =>
      refine List.chain'_cons'.mpr ⟨?_, List.chain'_cons'.mpr hc⟩
      intro h hh
      simp only [List.head?_cons, Option.mem_def, Option.some.injEq] at hh
      subst hh
      exact hle
    next hgt =>
      have hyx : cmp y x ≤ 0 := by
        rcases htot y (List.mem_cons_self y ys) with h | h
        · exact absurd h hgt
        · exact h
      have hrec := ih (fun z hz => htot z (List.mem_cons_of_mem _ hz)) hc.2
      refine List.chain'_cons'.mpr ⟨?_, hrec⟩
      intro h hh
      cases ys with
      | nil =>
        simp only [insertCmp, List.head?_cons, Option.mem_def, Option.some.injEq] at hh
        subst hh
        exact hyx
      | cons z zs =>
        rw [show insertCmp cmp x (z :: zs) =
              if cmp x z ≤ 0 then x :: z :: zs else z :: insertCmp cmp x zs from rfl] at hh
        split at hh
        · simp only [List.head?_cons, Option.mem_def, Option.some.injEq] at hh
          subst hh
          exact hyx
        · simp only [List.head?_cons, Option.mem_def, Option.some.injEq] at hh
          subst hh
          exact hc.1 z (by simp)

theorem sortCmp_chain' {cmp : α → α → Int} {l : List α}
    (htot : ∀ a ∈ l, ∀ b ∈ l, cmp a b ≤ 0 ∨ cmp b a ≤ 0) :
    List.Chain' (fun a b => cmp a b ≤ 0) (sortCmp cmp l) := by
  induction l with
  | nil => simp [sortCmp]
  | cons x xs ih =>
    unfold sortCmp
    refine chain'_insertCmp ?_ (ih ?_)
    · intro y hy
      have hy2 : y ∈ xs := mem_sortCmp.mp hy
      exact htot x (List.mem_cons_self x xs) y (List.mem_cons_of_mem _ hy2)
    · intro a ha b hb
      exact htot a (List.mem_cons_of_mem _ ha) b (List.mem_cons_of_mem _ hb)

theorem sortCmp_eq_of_tied {cmp : α → α → Int} {l : List α}
    (htied : ∀ a ∈ l, ∀ b ∈ l, cmp a b = 0) : sortCmp cmp l = l := by
  induction l with
  | nil => rfl
  | cons x xs ih =>
    unfold sortCmp
    rw [ih (fun a ha b hb => htied a (List.mem_cons_of_mem _ ha) b (List.mem_cons_of_mem _ hb))]
    cases xs with
    | nil => rfl
    | cons y ys =>
      unfold insertCmp
      rw [if_pos]
      rw [htied x (List.mem_cons_self x _) y (by simp)]

theorem isRootB_eq {cores : List TraceSpanCore} {i : Nat} :
    isRootB cores i = (linkParent cores i).isNone := by
  unfold isRootB hasParentRef linkParent
  cases h : cores[i]? with
  | none => simp
  | some c => cases hb : c.parentSpanId.truthy <;> simp [hb]

theorem mem_rootIdxsOf {cores : List TraceSpanCore} {i : Nat} :
    i ∈ rootIdxsOf cores ↔ i < cores.length ∧ linkParent cores i = none := by
  unfold rootIdxsOf
  rw [List.mem_filter, List.mem_range, isRootB_eq]
  simp [Option.isNone_iff_eq_none]

theorem mem_linkChildren {cores : List TraceSpanCore} {p i : Nat} :
    i ∈ linkChildren cores p ↔ i < cores.length ∧ linkParent cores i = some p := by
  unfold linkChildren
  rw [List.mem_filter, List.mem_range]
  simp

theorem mem_childrenOf {cores : List TraceSpanCore} {p i : Nat} :
    i ∈ childrenOf cores p ↔ i < cores.length ∧ linkParent cores i = some p := by
  unfold childrenOf
  rw [mem_sortCmp]
  exact mem_linkChildren

theorem linkParent_some_lt {cores : List TraceSpanCore} {i p : Nat}
    (h : linkParent cores i = some p) : p < cores.length := by
  unfold linkParent at h
  split at h
  next c hc =>
    split at h
    · exact lookupId_lt h
    · exact absurd h (by simp)
  · exact absurd h (by simp)

theorem child_unique {cores : List TraceSpanCore} {i p q : Nat}
    (hp : i ∈ childrenOf cores p) (hq : i ∈ childrenOf cores q) : p = q := by
  have h1 := (mem_childrenOf.mp hp).2
  have h2 := (mem_childrenOf.mp hq).2
  rw [h1] at h2
  exact Option.some.inj h2

theorem root_not_child {cores : List TraceSpanCore} {r p : Nat}
    (hr : r ∈ rootIdxsOf cores) : r ∉ childrenOf cores p := by
  intro hc
  have h1 := (mem_rootIdxsOf.mp hr).2
  have h2 := (mem_childrenOf.mp hc).2
  rw [h1] at h2
  exact absurd h2 (by simp)

theorem reaches_trans {ch : Nat → List Nat} {a b c : Nat}
    (h1 : Reaches ch a b) (h2 : Reaches ch b c) : Reaches ch a c := by
  induction h2 with
  | single h => exact Reaches.step h1 h
  | step _ h ih => exact Reaches.step ih h

theorem reaches_lastEdge {ch : Nat → List Nat} {a b : Nat} (h : Reaches ch a b) :
    ∃ c, b ∈ ch c ∧ (c = a ∨ Reaches ch a c) := by
  cases h with
  | single hj => exact ⟨a, hj, Or.inl rfl⟩
  | step h1 hk => exact ⟨_, hk, Or.inr h1⟩

theorem root_reach_not_self {cores : List TraceSpanCore} {r : Nat}
    (hr : r ∈ rootIdxsOf cores) :
    ¬ Reaches (childrenOf cores) r r ∧
    ∀ b, Reaches (childrenOf cores) r b → ¬ Reaches (childrenOf cores) b b := by
  constructor
  · intro h
    obtain ⟨c, hc, _⟩ := reaches_lastEdge h
    exact root_not_child hr hc
  · intro b hb
    induction hb with
    | single hj =>
      intro hbb
      obtain ⟨c, hc, hca⟩ := reaches_lastEdge hbb
      have hcr := child_unique hc hj
      subst hcr
      rcases hca with rfl | hcb
      · exact root_not_child hr hj
      · obtain ⟨d, hd, _⟩ := reaches_lastEdge hcb
        exact root_not_child hr hd
    | step h1 hk ih =>
      intro hbb
      obtain ⟨c, hc, hca⟩ := reaches_lastEdge hbb
      have hcj := child_unique hc hk
      subst hcj
      rcases hca with rfl | hcb
      · exact ih hbb
      · exact ih (reaches_trans (Reaches.single hk) hcb)

/-- C2 (amended): no span that is a root or reachable from a root is inside
its own transitive `childSpans` closure — the trees hanging off `rootSpans`
are genuine trees even when the input parent graph is cyclic (cycles survive
only in components unreachable from any root, as the counterexample
shows). -/
theorem c2_no_root_reachable_span_is_own_ancestor :
    ∀ (pj tr : String) (spans : List JVal) (t : TraceData),
      buildTraceHierarchy pj tr spans = .ok t →
      ∀ r ∈ t.rootIdxs,
        ¬ Reaches t.children r r ∧
        ∀ b, Reaches t.children r b → ¬ Reaches t.children b b := by
  intro pj tr spans t h r hr
  obtain ⟨-, hroots, hch⟩ := build_ok h
  rw [hroots] at hr
  rw [hch]
  exact root_reach_not_self hr

/-- Witness for the amended C2 at Scenario A. -/
theorem c2_amended_witness :
    ¬ Reaches (builtOf scenarioASpans).children 0 0 :=
  (c2_no_root_reachable_span_is_own_ancestor "p" "t" scenarioASpans
    (builtOf scenarioASpans) rfl 0 (by decide)).1

theorem descCount_fuel_congr {ch : Nat → List Nat} {n : Nat}
    (hch : ∀ p j, j ∈ ch p → j < n) :
    ∀ (c : Nat) (i : Nat), i < n →
      (∀ k, (k = i ∨ Reaches ch i k) → ¬ Reaches ch k k) →
      {k | k < n ∧ (k = i ∨ Reaches ch i k)}.ncard ≤ c →
      ∀ f g, c ≤ f → c ≤ g →
        countDescendantsFuel ch f i = countDescendantsFuel ch g i := by
  intro c
  induction c using Nat.strong_induction_on with
  | _ c ih =>
    intro i hi hns hcard f g hf hg
    have hfin : {k | k < n ∧ (k = i ∨ Reaches ch i k)}.Finite := by
      apply Set.Finite.subset (Set.finite_Iio n)
      intro k hk
      exact hk.1
    have hpos : 0 < {k | k < n ∧ (k = i ∨ Reaches ch i k)}.ncard :=
      (Set.ncard_pos hfin).mpr ⟨i, hi, Or.inl rfl⟩
    have hc1 : 1 ≤ c := le_trans hpos hcard
    obtain ⟨f2, rfl⟩ : ∃ f2, f = f2 + 1 := ⟨f - 1, by omega⟩
    obtain ⟨g2, rfl⟩ : ∃ g2, g = g2 + 1 := ⟨g - 1, by omega⟩
    unfold countDescendantsFuel
    congr 1
    refine congrArg List.sum (List.map_congr_left ?_)
    intro j hj
    have hjn : j < n := hch i j hj
    have hnsj : ∀ k, (k = j ∨ Reaches ch j k) → ¬ Reaches ch k k := by
      intro k hk
      apply hns
      rcases hk with rfl | hk
      · exact Or.inr (Reaches.single hj)
      · exact Or.inr (reaches_trans (Reaches.single hj) hk)
    have hsubset : {k | k < n ∧ (k = j ∨ Reaches ch j k)} ⊆
        {k | k < n ∧ (k = i ∨ Reaches ch i k)} := by
      intro k hk
      refine ⟨hk.1, Or.inr ?_⟩
      rcases hk.2 with rfl | h2
      · exact Reaches.single hj
      · exact reaches_trans (Reaches.single hj) h2
    have hinotin : i ∉ {k | k < n ∧ (k = j ∨ Reaches ch j k)} := by
      intro hiA
      rcases hiA.2 with rfl | hji
      · exact hns i (Or.inl rfl) (Reaches.single hj)
      · exact hns i (Or.inl rfl) (reaches_trans (Reaches.single hj) hji)
    have hssub : {k | k < n ∧ (k = j ∨ Reaches ch j k)} ⊂
        {k | k < n ∧ (k = i ∨ Reaches ch i k)} :=
      (Set.ssubset_iff_of_subset hsubset).mpr ⟨i, ⟨hi, Or.inl rfl⟩, hinotin⟩
    have hlt := Set.ncard_lt_ncard hssub hfin
    exact ih (c - 1) (by omega) j hjn hnsj (by omega) f2 g2 (by omega) (by omega)

/-- C8: from every root, the descendant-counting recursion stabilizes at
fuel `allSpans.length` — any call-stack budget of at least the number of
spans computes the same count, so the traversal from `rootSpans` cannot
loop or recurse without bound, on cyclic inputs included. -/
theorem c8_count_descendants_terminates :
    ∀ (pj tr : String) (spans : List JVal) (t : TraceData),
      buildTraceHierarchy pj tr spans = .ok t →
      ∀ r ∈ t.rootIdxs, ∀ fuel, t.allSpans.length ≤ fuel →
        countDescendantsFuel t.children fuel r =
          countDescendantsFuel t.children t.allSpans.length r := by
  intro pj tr spans t h r hr fuel hfuel
  obtain ⟨-, hroots, hch⟩ := build_ok h
  rw [hroots] at hr
  rw [hch]
  have hchv : ∀ p j, j ∈ childrenOf t.allSpans p → j < t.allSpans.length :=
    fun p j hj => (mem_childrenOf.mp hj).1
  have hrn : r < t.allSpans.length := (mem_rootIdxsOf.mp hr).1
  have hns : ∀ k, (k = r ∨ Reaches (childrenOf t.allSpans) r k) →
      ¬ Reaches (childrenOf t.allSpans) k k := by
    intro k hk
    rcases hk with rfl | hk
    · exact (root_reach_not_self hr).1
    · exact (root_reach_not_self hr).2 k hk
  have hcard : {k | k < t.allSpans.length ∧
      (k = r ∨ Reaches (childrenOf t.allSpans) r k)}.ncard ≤ t.allSpans.length := by
    have hsub : {k | k < t.allSpans.length ∧
        (k = r ∨ Reaches (childrenOf t.allSpans) r k)} ⊆ Set.Iio t.allSpans.length :=
      fun k hk => hk.1
    have h1 := Set.ncard_le_ncard hsub (Set.finite_Iio t.allSpans.length)
    have h2 : (Set.Iio t.allSpans.length).ncard = t.allSpans.length := by
      rw [show Set.Iio t.allSpans.length = ↑(Finset.range t.allSpans.length) by
        ext k
        simp [Finset.mem_range]]
      rw [Set.ncard_coe_Finset]
      exact Finset.card_range _
    omega
  exact descCount_fuel_congr hchv t.allSpans.length r hrn hns hcard fuel
    t.allSpans.length hfuel le_rfl

/-- Witness for C8 at Scenario A: budget 5 and budget 2 agree from the
root. -/
theorem c8_witness :
    countDescendantsFuel (builtOf scenarioASpans).children 5 0 =
      countDescendantsFuel (builtOf scenarioASpans).children
        (builtOf scenarioASpans).allSpans.length 0 :=
  c8_count_descendants_terminates "p" "t" scenarioASpans (builtOf scenarioASpans) rfl
    0 (by decide) 5 (by decide)

theorem count_filter_range {n : Nat} {p : Nat → Bool} {i : Nat} :
    ((List.range n).filter p).count i = if i < n ∧ p i = true then 1 else 0 := by
  by_cases h : i < n ∧ p i = true
  · rw [if_pos h]
    apply List.count_eq_one_of_mem
    · exact (List.nodup_range n).filter _
    · rw [List.mem_filter]
      exact ⟨List.mem_range.mpr h.1, h.2⟩
  · rw [if_neg h]
    apply List.count_eq_zero_of_not_mem
    intro hmem
    rw [List.mem_filter, List.mem_range] at hmem
    exact h hmem

theorem count_join_eq {L : List (List Nat)} {a : Nat} :
    L.flatten.count a = (L.map (fun l => l.count a)).sum := by
  induction L with
  | nil => simp
  | cons l ls ih => simp [List.count_append, ih]

theorem sum_map_indicator {n p0 : Nat} :
    ((List.range n).map (fun p => if p0 = p then (1 : Nat) else 0)).sum =
      if p0 < n then 1 else 0 := by
  induction n with
  | zero => simp
  | succ m ih =>
    rw [List.range_succ, List.map_append, List.sum_append, ih]
    by_cases h1 : p0 = m
    · subst h1
      simp
    · by_cases h2 : p0 < m
      · simp [h1, h2, Nat.lt_succ_of_lt h2]
      · have h3 : ¬ p0 < m + 1 := by omega
        simp [h1, h2, h3]

/-- C1 (amended): for every non-empty input, `allSpans` has one entry per
input span, and every span occurs exactly once in the structure as a root
or as exactly one span's child — the concatenation of `rootSpans` with all
`childSpans` lists holds each span index exactly once.  (The original
descendants-of-roots phrasing additionally requires the resolved parent
links to be acyclic; the counterexample shows a cycle escapes it.) -/
theorem c1_completeness_partition :
    ∀ (pj tr : String) (spans : List JVal) (t : TraceData),
      buildTraceHierarchy pj tr spans = .ok t → spans ≠ [] →
      t.allSpans.length = spans.length ∧
      ∀ i, i < spans.length →
        (t.rootIdxs ++ ((List.range spans.length).map t.children).flatten).count i = 1 := by
  intro pj tr spans t h hne
  obtain ⟨hn, hroots, hch⟩ := build_ok h
  have hlen : t.allSpans.length = spans.length := normalizeAll_ok_length hn
  refine ⟨hlen, ?_⟩
  intro i hi
  have hin : i < t.allSpans.length := by omega
  rw [List.count_append, hroots, hch]
  have hc1 : (rootIdxsOf t.allSpans).count i =
      if (linkParent t.allSpans i).isNone then 1 else 0 := by
    unfold rootIdxsOf
    rw [count_filter_range]
    by_cases hb : (linkParent t.allSpans i).isNone
    · simp [hin, isRootB_eq, hb]
    · simp [hin, isRootB_eq, hb]
  have hc2 : ∀ p, (childrenOf t.allSpans p).count i =
      if linkParent t.allSpans i = some p then 1 else 0 := by
    intro p
    unfold childrenOf
    rw [(sortCmp_perm _ _).count_eq]
    unfold linkChildren
    rw [count_filter_range]
    by_cases hp : linkParent t.allSpans i = some p
    · simp [hin, hp]
    · simp [hin, hp]
  rw [count_join_eq, List.map_map]
  have hmap : (List.range spans.length).map ((fun l => l.count i) ∘ childrenOf t.allSpans) =
      (List.range spans.length).map
        (fun p => if linkParent t.allSpans i = some p then 1 else 0) :=
    List.map_congr_left (fun p _ => hc2 p)
  rw [hmap]
  cases hlp : linkParent t.allSpans i with
  | none =>
    rw [hc1, hlp]
    simp
  | some p0 =>
    have hp0 : p0 < t.allSpans.length := linkParent_some_lt hlp
    rw [hc1, hlp]
    simp only [Option.some.injEq]
    rw [sum_map_indicator]
    have hlt : p0 < spans.length := by omega
    simp [hlt]

/-- Witness for the amended C1 at Scenario A: two spans, each counted
exactly once across roots and child lists. -/
theorem c1_amended_witness :
    (builtOf scenarioASpans).allSpans.length = scenarioASpans.length ∧
    ((builtOf scenarioASpans).rootIdxs ++
      ((List.range scenarioASpans.length).map (builtOf scenarioASpans).children).flatten).count 0 = 1 ∧
    ((builtOf scenarioASpans).rootIdxs ++
      ((List.range scenarioASpans.length).map (builtOf scenarioASpans).children).flatten).count 1 = 1 := by
  have h := c1_completeness_partition "p" "t" scenarioASpans (builtOf scenarioASpans) rfl
    (List.cons_ne_nil _ _)
  exact ⟨h.1, h.2 0 (by decide), h.2 1 (by decide)⟩

/-- C7 (amended): after the sort pass, (i) a span all of whose children
have parsable `startTime` has `childSpans` in non-decreasing start-time
order under the sort comparator, and (ii) when every pair of children
compares equal (in particular when all start times are unparsable) the sort
is stable and keeps the link-pass order unchanged; the sort is a total
function, so it cannot throw.  (When parsable and unparsable children mix,
ties through unparsable children pin the order, as the counterexample
shows.) -/
theorem c7_child_ordering_amended :
    (∀ (pj tr : String) (spans : List JVal) (t : TraceData) (p : Nat),
        buildTraceHierarchy pj tr spans = .ok t →
        (∀ i ∈ t.children p, (dateGetTime (spanStartTime t.allSpans i)).isSome = true) →
        List.Chain' (fun i j => spanStartCmp t.allSpans i j ≤ 0) (t.children p)) ∧
    (∀ (pj tr : String) (spans : List JVal) (t : TraceData) (p : Nat),
        buildTraceHierarchy pj tr spans = .ok t →
        (∀ i ∈ linkChildren t.allSpans p, ∀ j ∈ linkChildren t.allSpans p,
          spanStartCmp t.allSpans i j = 0) →
        t.children p = linkChildren t.allSpans p) := by
  constructor
  · intro pj tr spans t p h hp
    obtain ⟨-, -, hch⟩ := build_ok h
    rw [hch] at hp ⊢
    unfold childrenOf at hp ⊢
    apply sortCmp_chain'
    intro a ha b hb
    obtain ⟨x, hx⟩ := Option.isSome_iff_exists.mp (hp a (mem_sortCmp.mpr ha))
    obtain ⟨y, hy⟩ := Option.isSome_iff_exists.mp (hp b (mem_sortCmp.mpr hb))
    have hab : spanStartCmp t.allSpans a b = x - y := by
      unfold spanStartCmp
      rw [hx, hy]
    have hba : spanStartCmp t.allSpans b a = y - x := by
      unfold spanStartCmp
      rw [hx, hy]
    rw [hab, hba]
    omega
  · intro pj tr spans t p h hp
    obtain ⟨-, -, hch⟩ := build_ok h
    rw [hch]
    unfold childrenOf
    exact sortCmp_eq_of_tied hp

/-- Witness for the amended C7: fully parsable children end up ordered, and
fully tied (unparsable) children keep the link order. -/
theorem c7_amended_witness :
    List.Chain' (fun i j => spanStartCmp (builtOf c7WitnessSpans).allSpans i j ≤ 0)
      ((builtOf c7WitnessSpans).children 0) ∧
    (builtOf c7TieWitnessSpans).children 0 =
      linkChildren (builtOf c7TieWitnessSpans).allSpans 0 := by
  constructor
  · exact c7_child_ordering_amended.1 "p" "t" c7WitnessSpans (builtOf c7WitnessSpans) 0 rfl
      (by decide)
  · exact c7_child_ordering_amended.2 "p" "t" c7TieWitnessSpans (builtOf c7TieWitnessSpans) 0 rfl
      (by decide)

theorem bne_trace_ok_unspec : (TraceStatus.OK != TraceStatus.UNSPECIFIED) = true := rfl

theorem bne_trace_err_unspec : (TraceStatus.ERROR != TraceStatus.UNSPECIFIED) = true := rfl

theorem bne_trace_unspec_self : (TraceStatus.UNSPECIFIED != TraceStatus.UNSPECIFIED) = false := rfl

theorem resolveStatus_eq_spec (span : JVal) : resolveStatus span = statusPrecedenceSpec span := by
  unfold resolveStatus statusPrecedenceSpec statusExplicitZero statusExplicitPos
    errorLabelTruthy httpLabelCode
  cases h1 : truthyO (span.getF "status") <;>
  cases h2 : ((span.getF "status").bind (fun st => st.getF "code")) == some (JVal.jnum 0) <;>
  cases h3 : jsGtZero ((span.getF "status").bind (fun st => st.getF "code")) <;>
  cases h4 : truthyO (span.getF "labels") <;>
  cases h5 : (truthyO (labelGet span "/error/message") || truthyO (labelGet span "error")) <;>
  cases h6 : truthyO (labelGet span "/http/status_code") <;>
  simp [h1, h2, h3, h4, h5, h6, bne_trace_ok_unspec, bne_trace_err_unspec, bne_trace_unspec_self]

/-- C9 (amended): the canonical status equals the first-match rule list:
an explicit truthy status object with `code` strictly equal to the number
`0` gives OK, a `code` coercing numerically above `0` gives ERROR;
otherwise a truthy value under `/error/message` or `error` in the labels
gives ERROR; otherwise a truthy `/http/status_code` label is
`parseInt`-classified (`>= 400` ERROR, `200..399` OK); otherwise
UNSPECIFIED.  (Presence of an error-message key with a falsy value does not
force ERROR, as the counterexample shows.) -/
theorem c9_status_precedence_amended :
    ∀ (span : JVal) (c : TraceSpanCore), normalizeSpan span = .ok c →
      c.status = statusPrecedenceSpec span := by
  intro span c h
  rw [(normalizeSpan_ok_parts h).2.2.2.1]
  exact resolveStatus_eq_spec span

/-- Witness for the amended C9: an explicit status code `5` classifies as
the rule list says. -/
theorem c9_amended_witness :
    ((normalizeSpan (JVal.jobj [("spanId", JVal.jstr "w"),
        ("status", JVal.jobj [("code", JVal.jnum 5)])])).toOption.getD default).status =
      statusPrecedenceSpec (JVal.jobj [("spanId", JVal.jstr "w"),
        ("status", JVal.jobj [("code", JVal.jnum 5)])]) :=
  c9_status_precedence_amended _ _ rfl

theorem jval_beq_false {a b : JVal} (h : a ≠ b) : (a == b) = false := by
  cases hb : a == b
  · rfl
  · exact absurd (jval_beq_iff.mp hb) h

theorem lookupAttr_nil {k : String} : lookupAttr [] k = none := rfl

theorem lookupAttr_cons {p : String × JVal} {rest : List (String × JVal)} {k : String} :
    lookupAttr (p :: rest) k = if p.1 == k then some p.2 else lookupAttr rest k := rfl

theorem find_map_replace {attrs : List (String × JVal)} {k : String} {v : JVal}
    (hany : attrs.any (fun p => p.1 == k) = true) :
    lookupAttr (attrs.map (fun p => if p.1 == k then (k, v) else p)) k = some v := by
  induction attrs with
  | nil => simp at hany
  | cons p rest ih =>
    rw [List.map_cons]
    by_cases hp : (p.1 == k) = true
    · rw [if_pos hp, lookupAttr_cons]
      simp
    · rw [if_neg hp, lookupAttr_cons, if_neg (by simpa using hp)]
      apply ih
      simp only [List.any_cons, hp, Bool.false_or] at hany
      exact hany

theorem find_append_new {attrs : List (String × JVal)} {k : String} {v : JVal}
    (hany : attrs.any (fun p => p.1 == k) = false) :
    lookupAttr (attrs ++ [(k, v)]) k = some v := by
  induction attrs with
  | nil =>
    rw [List.nil_append, lookupAttr_cons]
    simp
  | cons p rest ih =>
    simp only [List.any_cons, Bool.or_eq_false_iff] at hany
    rw [List.cons_append, lookupAttr_cons, if_neg (by simpa using hany.1)]
    exact ih hany.2

theorem lookupAttr_objSet_self {attrs : List (String × JVal)} {k : String} {v : JVal} :
    lookupAttr (objSet attrs k v) k = some v := by
  unfold objSet
  split
  next hany => exact find_map_replace hany
  next hany =>
    cases hb : attrs.any (fun p => p.1 == k) with
    | true => exact absurd hb hany
    | false => exact find_append_new hb

theorem lookupAttr_map_replace_other {attrs : List (String × JVal)} {k k2 : String} {v : JVal}
    (h : k2 ≠ k) :
    lookupAttr (attrs.map (fun p => if p.1 == k then (k, v) else p)) k2 =
      lookupAttr attrs k2 := by
  have hkk2 : (k == k2) = false := by
    cases hb : k == k2
    · rfl
    · exact absurd (eq_of_beq hb) (fun he => h he.symm)
  induction attrs with
  | nil => rfl
  | cons p rest ih =>
    rw [List.map_cons, lookupAttr_cons, lookupAttr_cons]
    by_cases hp : (p.1 == k) = true
    · have hp2 : (p.1 == k2) = false := by
        rw [eq_of_beq hp]
        exact hkk2
      rw [if_pos hp]
      show (if (k == k2) = true then some v else _) = _
      rw [if_neg (by simp [hkk2]), if_neg (by simp [hp2])]
      exact ih
    · rw [if_neg hp]
      by_cases hq : (p.1 == k2) = true
      · rw [if_pos hq, if_pos hq]
      · rw [if_neg hq, if_neg hq]
        exact ih

theorem lookupAttr_append_new_other {attrs : List (String × JVal)} {k k2 : String} {v : JVal}
    (h : k2 ≠ k) :
    lookupAttr (attrs ++ [(k, v)]) k2 = lookupAttr attrs k2 := by
  have hkk2 : (k == k2) = false := by
    cases hb : k == k2
    · rfl
    · exact absurd (eq_of_beq hb) (fun he => h he.symm)
  induction attrs with
  | nil =>
    rw [List.nil_append, lookupAttr_cons, if_neg (by simp [hkk2]), lookupAttr_nil]
  | cons p rest ih =>
    rw [List.cons_append, lookupAttr_cons, lookupAttr_cons]
    by_cases hq : (p.1 == k2) = true
    · rw [if_pos hq, if_pos hq]
    · rw [if_neg hq, if_neg hq]
      exact ih

theorem lookupAttr_objSet_other {attrs : List (String × JVal)} {k k2 : String} {v : JVal}
    (h : k2 ≠ k) :
    lookupAttr (objSet attrs k v) k2 = lookupAttr attrs k2 := by
  unfold objSet
  split
  · exact lookupAttr_map_replace_other h
  · exact lookupAttr_append_new_other h

theorem attrMap_fold_skip {es : List (String × JVal)} {attrs : List (String × JVal)} {k : String}
    (h : ∀ e ∈ es, e.1 ≠ k) :
    lookupAttr (es.foldl (fun acc kv =>
      if kv.2 == JVal.jnull then acc else objSet acc kv.1 (attrMapVal kv.2)) attrs) k =
    lookupAttr attrs k := by
  induction es generalizing attrs with
  | nil => rfl
  | cons e rest ih =>
    rw [List.foldl_cons, ih (fun d hd => h d (List.mem_cons_of_mem _ hd))]
    by_cases he : (e.2 == JVal.jnull) = true
    · rw [if_pos he]
    · rw [if_neg he]
      exact lookupAttr_objSet_other (h e (List.mem_cons_self _ _)).symm

theorem attrMap_fold_set {es : List (String × JVal)} {attrs : List (String × JVal)}
    {k : String} {w : JVal}
    (hnd : (es.map Prod.fst).Nodup) (hm : (k, w) ∈ es) (hw : w ≠ JVal.jnull) :
    lookupAttr (es.foldl (fun acc kv =>
      if kv.2 == JVal.jnull then acc else objSet acc kv.1 (attrMapVal kv.2)) attrs) k =
      some (attrMapVal w) := by
  induction es generalizing attrs with
  | nil => simp at hm
  | cons e rest ih =>
    rw [List.foldl_cons]
    rcases List.mem_cons.mp hm with he | hm2
    · subst he
      have hnd2 : k ∉ rest.map Prod.fst ∧ (rest.map Prod.fst).Nodup := by
        rw [List.map_cons, List.nodup_cons] at hnd
        exact hnd
      have hrest : ∀ d ∈ rest, d.1 ≠ k := fun d hd hdk =>
        hnd2.1 (hdk ▸ List.mem_map_of_mem Prod.fst hd)
      rw [attrMap_fold_skip hrest]
      rw [if_neg (by simpa using jval_beq_false hw)]
      exact lookupAttr_objSet_self
    · have hnd2 : (rest.map Prod.fst).Nodup := by
        rw [List.map_cons, List.nodup_cons] at hnd
        exact hnd.2
      exact ih hnd2 hm2

theorem strAppendLeftCancel {a b c : String} (h : a ++ b = a ++ c) : b = c := by
  have hd := congrArg String.data h
  rw [String.data_append, String.data_append] at hd
  have hbc := List.append_cancel_left hd
  cases b
  cases c
  exact congrArg String.mk (by simpa using hbc)

theorem raw_append_ne {a b : String} (h : a ≠ b) :
    ("raw." ++ a : String) ≠ "raw." ++ b :=
  fun he => h (strAppendLeftCancel he)

theorem short_not_raw {k : String} (h : k.length < 4) : ∀ r, k ≠ "raw." ++ r := by
  intro r he
  have hl := congrArg String.length he
  rw [String.length_append] at hl
  have h4 : ("raw." : String).length = 4 := rfl
  omega

theorem rawFields_fold_keeps {es : List (String × JVal)} {attrs : List (String × JVal)}
    {k : String} (h : ∀ r, k ≠ "raw." ++ r) :
    lookupAttr (es.foldl (fun acc kv =>
      if standardSpanKeys.contains kv.1 then acc
      else match rawFieldVal kv.2 with
        | some v => objSet acc ("raw." ++ kv.1) v
        | none => acc) attrs) k = lookupAttr attrs k := by
  induction es generalizing attrs with
  | nil => rfl
  | cons e rest ih =>
    rw [List.foldl_cons, ih]
    by_cases hs : standardSpanKeys.contains e.1 = true
    · rw [if_pos hs]
    · rw [if_neg hs]
      cases hv : rawFieldVal e.2 with
      | none => rfl
      | some v => exact lookupAttr_objSet_other (h e.1)

theorem rawFields_fold_skips_key {es : List (String × JVal)} {attrs : List (String × JVal)}
    {f : String} (h : ∀ e ∈ es, e.1 ≠ f) :
    lookupAttr (es.foldl (fun acc kv =>
      if standardSpanKeys.contains kv.1 then acc
      else match rawFieldVal kv.2 with
        | some v => objSet acc ("raw." ++ kv.1) v
        | none => acc) attrs) ("raw." ++ f) = lookupAttr attrs ("raw." ++ f) := by
  induction es generalizing attrs with
  | nil => rfl
  | cons e rest ih =>
    rw [List.foldl_cons, ih (fun d hd => h d (List.mem_cons_of_mem _ hd))]
    by_cases hs : standardSpanKeys.contains e.1 = true
    · rw [if_pos hs]
    · rw [if_neg hs]
      cases hv : rawFieldVal e.2 with
      | none => rfl
      | some v =>
        exact lookupAttr_objSet_other (raw_append_ne (h e (List.mem_cons_self _ _))).symm

theorem rawFields_fold_arr {es : List (String × JVal)} {attrs : List (String × JVal)}
    {f : String} {xs : List JVal}
    (hnd : (es.map Prod.fst).Nodup) (hm : (f, JVal.jarr xs) ∈ es) :
    lookupAttr (es.foldl (fun acc kv =>
      if standardSpanKeys.contains kv.1 then acc
      else match rawFieldVal kv.2 with
        | some v => objSet acc ("raw." ++ kv.1) v
        | none => acc) attrs) ("raw." ++ f) = lookupAttr attrs ("raw." ++ f) := by
  induction es generalizing attrs with
  | nil => simp at hm
  | cons e rest ih =>
    rw [List.foldl_cons]
    rcases List.mem_cons.mp hm with he | hm2
    · subst he
      have hnd2 : f ∉ rest.map Prod.fst ∧ (rest.map Prod.fst).Nodup := by
        rw [List.map_cons, List.nodup_cons] at hnd
        exact hnd
      have hrest : ∀ d ∈ rest, d.1 ≠ f := fun d hd hdk =>
        hnd2.1 (hdk ▸ List.mem_map_of_mem Prod.fst hd)
      rw [rawFields_fold_skips_key hrest]
      by_cases hs : standardSpanKeys.contains (f, JVal.jarr xs).1 = true
      · rw [if_pos hs]
      · rw [if_neg hs]
        rfl
    · have hnd2 : (rest.map Prod.fst).Nodup := by
        rw [List.map_cons, List.nodup_cons] at hnd
        exact hnd.2
      have hef : e.1 ≠ f := by
        intro hef
        rw [List.map_cons, List.nodup_cons] at hnd
        exact hnd.1 (hef ▸ List.mem_map_of_mem Prod.fst hm2)
      have hstep : lookupAttr (if standardSpanKeys.contains e.1 then attrs
          else match rawFieldVal e.2 with
            | some v => objSet attrs ("raw." ++ e.1) v
            | none => attrs) ("raw." ++ f) = lookupAttr attrs ("raw." ++ f) := by
        by_cases hs : standardSpanKeys.contains e.1 = true
        · rw [if_pos hs]
        · rw [if_neg hs]
          cases hv : rawFieldVal e.2 with
          | none => rfl
          | some v => exact lookupAttr_objSet_other (raw_append_ne hef).symm
      rw [ih hnd2 hm2, hstep]

/-- C10: the third flattening source writes only `raw.`-prefixed keys —
every key not of the form `raw.<field>` maps to the same value before and
after the leftover-field pass — and an array-valued leftover field
contributes no attribute entry, so that pass can only overwrite a label-map
or attribute-map key that itself begins with `raw.`. -/
theorem c10_raw_prefix_isolation :
    ∀ (span : JVal) (attrs : List (String × JVal)),
      (∀ k, (∀ r, k ≠ "raw." ++ r) →
        lookupAttr (passRawFields span attrs) k = lookupAttr attrs k) ∧
      (((jsEntries span).map Prod.fst).Nodup →
        ∀ f xs, (f, JVal.jarr xs) ∈ jsEntries span →
          lookupAttr (passRawFields span attrs) ("raw." ++ f) =
            lookupAttr attrs ("raw." ++ f)) := by
  intro span attrs
  constructor
  · intro k hk
    unfold passRawFields
    exact rawFields_fold_keeps hk
  · intro hnd f xs hm
    unfold passRawFields
    exact rawFields_fold_arr hnd hm

/-- Witness for C10: a span with one scalar leftover field and one
array-valued leftover field leaves both a plain key and the array's
would-be `raw.` key untouched. -/
theorem c10_witness :
    lookupAttr (passRawFields (JVal.jobj [("foo", JVal.jstr "v"), ("arrf", JVal.jarr [])])
        [("x", JVal.jstr "1")]) "x" = lookupAttr [("x", JVal.jstr "1")] "x" ∧
    lookupAttr (passRawFields (JVal.jobj [("foo", JVal.jstr "v"), ("arrf", JVal.jarr [])])
        [("x", JVal.jstr "1")]) ("raw." ++ "arrf") =
      lookupAttr [("x", JVal.jstr "1")] ("raw." ++ "arrf") :=
  ⟨(c10_raw_prefix_isolation (JVal.jobj [("foo", JVal.jstr "v"), ("arrf", JVal.jarr [])])
      [("x", JVal.jstr "1")]).1 "x" (short_not_raw (by decide)),
   (c10_raw_prefix_isolation (JVal.jobj [("foo", JVal.jstr "v"), ("arrf", JVal.jarr [])])
      [("x", JVal.jstr "1")]).2 (by decide) "arrf" [] (by decide)⟩

/-- C4 (amended): attribute-flattening precedence among sources (a) and (b)
is last-writer-wins — a key occurring both in the legacy label map and in
the structured attribute map (with non-null values, under real-object
unique keys) ends up bound to the attribute-map-derived value, the later
assignment having overwritten the label value; source (c) can only disturb
keys beginning with `raw.`, so any other key keeps that value. -/
theorem c4_attr_precedence_amended :
    ∀ (span : JVal) (c : TraceSpanCore) (k : String) (vl w : JVal),
      normalizeSpan span = .ok c →
      (∀ r, k ≠ "raw." ++ r) →
      truthyO (span.getF "labels") = true →
      (k, vl) ∈ jsEntries (jsOr (span.getF "labels") JVal.jnull) →
      vl ≠ JVal.jnull →
      truthyO (span.getF "attributes") = true →
      truthyO ((span.getF "attributes").bind (fun a => a.getF "attributeMap")) = true →
      ((jsEntries (jsOr ((span.getF "attributes").bind (fun a => a.getF "attributeMap"))
          JVal.jnull)).map Prod.fst).Nodup →
      (k, w) ∈ jsEntries (jsOr ((span.getF "attributes").bind (fun a => a.getF "attributeMap"))
          JVal.jnull) →
      w ≠ JVal.jnull →
      lookupAttr c.attributes k = some (attrMapVal w) := by
  intro span c k vl w hok hk hl hlm hlv ha ham hnd hm hw
  rw [(normalizeSpan_ok_parts hok).2.2.2.2]
  unfold flattenAttrs passRawFields
  rw [rawFields_fold_keeps hk]
  have hguard : (truthyO (span.getF "attributes") &&
      truthyO ((span.getF "attributes").bind (fun a => a.getF "attributeMap"))) = true := by
    rw [ha, ham]
    rfl
  simp only [passAttrMap]
  rw [if_pos hguard]
  exact attrMap_fold_set hnd hm hw

/-- Witness for the amended C4 at the colliding-key span: the flattened
value under `k` is the attribute-map extraction. -/
theorem c4_amended_witness :
    lookupAttr ((normalizeSpan c4CexSpan).toOption.getD default).attributes "k" =
      some (attrMapVal (JVal.jobj [("stringValue", JVal.jstr "b1")])) :=
  c4_attr_precedence_amended c4CexSpan ((normalizeSpan c4CexSpan).toOption.getD default)
    "k" (JVal.jstr "a1") (JVal.jobj [("stringValue", JVal.jstr "b1")]) rfl
    (short_not_raw (by decide)) rfl (by decide) (by decide) rfl rfl (by decide)
    (by decide) (by decide)

theorem normalizeAll_ok_pointwise {spans : List JVal} {cores : List TraceSpanCore}
    (hn : normalizeAll spans = .ok cores) {i : Nat} (hi : i < spans.length) :
    ∃ ci, cores[i]? = some ci ∧ normalizeSpan (spans.get ⟨i, hi⟩) = .ok ci := by
  have hget := normalizeAll_ok_get hn i
  have hsp : spans[i]? = some (spans.get ⟨i, hi⟩) := by
    rw [List.getElem?_eq_getElem hi]
    rfl
  rw [hsp] at hget
  replace hget : cores[i]? = (normalizeSpan (spans.get ⟨i, hi⟩)).toOption := hget
  cases he : normalizeSpan (spans.get ⟨i, hi⟩) with
  | error e =>
    rw [he] at hget
    have hlen := normalizeAll_ok_length hn
    have hsome : cores[i]? = some (cores.get ⟨i, by omega⟩) := by
      rw [List.getElem?_eq_getElem (by omega : i < cores.length)]
      rfl
    rw [hsome] at hget
    exact absurd hget (by simp [Except.toOption])
  | ok ci =>
    rw [he] at hget
    exact ⟨ci, by simpa [Except.toOption] using hget, rfl⟩

theorem str_isEmpty_true {s : String} (h : s.isEmpty = true) : s = "" := by
  cases s with
  | mk data =>
    cases data with
    | nil => rfl
    | cons c cs =>
      simp [String.isEmpty] at h
      have hb := congrArg String.Pos.byteIdx h
      simp at hb
      have := Char.utf8Size_pos c
      omega

theorem jstr_truthy_iff {s : String} : (JVal.jstr s).truthy = true ↔ s ≠ "" := by
  constructor
  · intro h he
    subst he
    simp [JVal.truthy, String.isEmpty] at h
  · intro h
    show (!s.isEmpty) = true
    cases he : s.isEmpty
    · rfl
    · exact absurd (str_isEmpty_true he) h

/-- C3: a span occurrence lands in `rootSpans` exactly when its declared
`parentSpanId` is absent or empty, or no input span carries that id —
dangling parent references are promoted to roots.  The identifier fields
are assumed string-or-absent, the shape the data model declares for
them. -/
theorem c3_root_correctness :
    ∀ (pj tr : String) (spans : List JVal) (t : TraceData),
      buildTraceHierarchy pj tr spans = .ok t →
      idFieldsAreStrings spans = true →
      ∀ i (hi : i < spans.length),
        (i ∈ t.rootIdxs ↔
          (spans.get ⟨i, hi⟩).getF "parentSpanId" = none ∨
          (spans.get ⟨i, hi⟩).getF "parentSpanId" = some (JVal.jstr "") ∨
          ∀ j (hj : j < spans.length),
            (spans.get ⟨j, hj⟩).getF "spanId" ≠ (spans.get ⟨i, hi⟩).getF "parentSpanId") := by
  intro pj tr spans t hb hstr i hi
  obtain ⟨hn, hroots, hch⟩ := build_ok hb
  have hlen := normalizeAll_ok_length hn
  obtain ⟨ci, hci, hoki⟩ := normalizeAll_ok_pointwise hn hi
  have hpid : ci.parentSpanId = jsOr ((spans.get ⟨i, hi⟩).getF "parentSpanId") (.jstr "") :=
    (normalizeSpan_ok_parts hoki).2.2.1
  have hiC : i < t.allSpans.length := by omega
  have hlp : linkParent t.allSpans i =
      (if ci.parentSpanId.truthy = true then lookupId t.allSpans ci.parentSpanId else none) := by
    unfold linkParent
    rw [hci]
  have hmem : i ∈ t.rootIdxs ↔ linkParent t.allSpans i = none := by
    rw [hroots, mem_rootIdxsOf]
    exact ⟨fun h => h.2, fun h => ⟨hiC, h⟩⟩
  have hstr_at : ∀ j (hj : j < spans.length),
      (match (spans.get ⟨j, hj⟩).getF "spanId" with
       | none => true
       | some (.jstr _) => true
       | some _ => false) = true ∧
      (match (spans.get ⟨j, hj⟩).getF "parentSpanId" with
       | none => true
       | some (.jstr _) => true
       | some _ => false) = true := by
    intro j hj
    have := List.all_eq_true.mp hstr (spans.get ⟨j, hj⟩) (List.get_mem spans j hj)
    exact Bool.and_eq_true_iff.mp this
  -- the stored span id of any input span, under the string-shape hypothesis
  have hsid : ∀ j (hj : j < spans.length) (cj : TraceSpanCore),
      normalizeSpan (spans.get ⟨j, hj⟩) = .ok cj →
      (cj.spanId = JVal.jstr "" ∧ ((spans.get ⟨j, hj⟩).getF "spanId" = none ∨
        (spans.get ⟨j, hj⟩).getF "spanId" = some (JVal.jstr ""))) ∨
      (∃ u, u ≠ "" ∧ cj.spanId = JVal.jstr u ∧
        (spans.get ⟨j, hj⟩).getF "spanId" = some (JVal.jstr u)) := by
    intro j hj cj hok
    have hspj : cj.spanId = jsOr ((spans.get ⟨j, hj⟩).getF "spanId") (.jstr "") :=
      (normalizeSpan_ok_parts hok).1
    have hshape := (hstr_at j hj).1
    cases hgj : (spans.get ⟨j, hj⟩).getF "spanId" with
    | none =>
      left
      rw [hgj] at hspj
      exact ⟨hspj, Or.inl rfl⟩
    | some v =>
      rw [hgj] at hshape
      cases v with
      | jstr u =>
        by_cases hu : u = ""
        · left
          subst hu
          rw [hgj] at hspj
          exact ⟨hspj, Or.inr rfl⟩
        · right
          refine ⟨u, hu, ?_, rfl⟩
          rw [hgj] at hspj
          rw [hspj]
          simp [jsOr, jstr_truthy_iff.mpr hu]
      | jnull => simp at hshape
      | jbool b => simp at hshape
      | jnum n => simp at hshape
      | jarr xs => simp at hshape
      | jobj fs => simp at hshape
  cases hpd : (spans.get ⟨i, hi⟩).getF "parentSpanId" with
  | none =>
    have hstored : ci.parentSpanId = JVal.jstr "" := by
      rw [hpid, hpd]
      rfl
    have hnone : linkParent t.allSpans i = none := by
      rw [hlp, hstored]
      rfl
    exact ⟨fun _ => Or.inl rfl, fun _ => hmem.mpr hnone⟩
  | some v =>
    have hshape := (hstr_at i hi).2
    rw [hpd] at hshape
    cases v with
    | jstr s =>
      by_cases hs : s = ""
      · subst hs
        have hstored : ci.parentSpanId = JVal.jstr "" := by
          rw [hpid, hpd]
          rfl
        have hnone : linkParent t.allSpans i = none := by
          rw [hlp, hstored]
          rfl
        exact ⟨fun _ => Or.inr (Or.inl rfl), fun _ => hmem.mpr hnone⟩
      · have htr : (JVal.jstr s).truthy = true := jstr_truthy_iff.mpr hs
        have hstored : ci.parentSpanId = JVal.jstr s := by
          rw [hpid, hpd]
          simp [jsOr, htr]
        have hlook : i ∈ t.rootIdxs ↔ lookupId t.allSpans (JVal.jstr s) = none := by
          rw [hmem, hlp, hstored, htr]
          simp
        rw [hlook, lookupId_none_iff]
        constructor
        · intro hall
          refine Or.inr (Or.inr ?_)
          intro j hj heq
          obtain ⟨cj, hcj, hokj⟩ := normalizeAll_ok_pointwise hn hj
          have hcjmem : cj ∈ t.allSpans := List.getElem?_mem hcj
          rcases hsid j hj cj hokj with ⟨hz, hraw⟩ | ⟨u, hu, hcu, hraw⟩
          · rcases hraw with hraw | hraw <;> rw [hraw] at heq <;> simp at heq
            exact hs heq.symm
          · rw [hraw] at heq
            have : u = s := by simpa using heq
            subst this
            exact hall cj hcjmem hcu
        · intro hr c hc heq
          rcases hr with hr | hr | hr
          · exact absurd hr (by simp)
          · have hse : s = "" := by simpa using hr
            exact hs hse
          · obtain ⟨nj, hnj⟩ := List.mem_iff_get.mp hc
            have hjlt : nj.1 < spans.length := by
              have := nj.2
              omega
            obtain ⟨cj, hcj, hokj⟩ := normalizeAll_ok_pointwise hn hjlt
            have hcjeq : cj = c := by
              have h1 : t.allSpans[nj.1]? = some (t.allSpans.get nj) := by
                rw [List.getElem?_eq_getElem nj.2]
                rfl
              rw [h1] at hcj
              rw [← hnj]
              exact (Option.some.inj hcj).symm
            rcases hsid nj.1 hjlt cj hokj with ⟨hz, hraw⟩ | ⟨u, hu, hcu, hraw⟩
            · rw [hcjeq] at hz
              rw [hz] at heq
              have hse : "" = s := by simpa using heq
              exact hs hse.symm
            · rw [hcjeq] at hcu
              rw [hcu] at heq
              have : u = s := by simpa using heq
              subst this
              apply hr nj.1 hjlt
              rw [hraw]
    | jnull => simp at hshape
    | jbool b => simp at hshape
    | jnum n => simp at hshape
    | jarr xs => simp at hshape
    | jobj fs => simp at hshape

/-- Witness for C3: the dangling-parent span is a root. -/
theorem c3_witness : 2 ∈ (builtOf c3WitnessSpans).rootIdxs :=
  (c3_root_correctness "p" "t" c3WitnessSpans (builtOf c3WitnessSpans) rfl (by decide)
    2 (by decide)).mpr (Or.inr (Or.inr (by decide)))
